import Mathlib

/-! Block-parallel exclusive scan: `parallel_exclusive_scan` of `src/main.cpp`.

The element type `T` is instantiated at the mathematical integers.  Iterators
into a buffer are offsets from its first element.  Every iterator move goes
through `advance` and every store through `store`; both are undefined (`none`)
as soon as they leave the buffer, which is where the C++ program has undefined
behaviour.  The `size_t` values `length + K - 1` and `i * block_size` are kept
as natural numbers: on the block path `K ≤ length ≤ PTRDIFF_MAX`, so neither
wraps (`size_arithmetic_in_range`).  The one conversion that can wrap,
`(size_t)std::distance(..)`, is modelled with its reduction modulo `2 ^ 64`.

The routine is a template in `T`; it is embedded a second time for an
arbitrary element type with its addition and its value `T{}` (names ending in
`_T`), shown to coincide with the integer embedding (`scan_in_order_T_int`),
and instantiated at 32-bit values with addition modulo `2 ^ 32`.
-/

namespace Lab2

/-! ## Library operations used by the routine -/

/-- Number of values of `size_t` on the 64-bit target. -/
def SIZE_MOD : Nat := 2 ^ 64

/-- The conversion `(size_t)d` of a signed iterator distance. -/
def to_size_t (d : Int) : Nat := (d % (SIZE_MOD : Int)).toNat

/-- `std::advance(it, d)` for an iterator at offset `pos` of a buffer of `n`
elements: defined up to the one-past-the-end position only. -/
def advance (n pos d : Nat) : Option Nat :=
  if pos + d ≤ n then some (pos + d) else none

/-- A store `buf[pos] = x`, defined only inside the buffer. -/
def store (buf : List Int) (pos : Nat) (x : Int) : Option (List Int) :=
  if pos < buf.length then some (buf.set pos x) else none

/-- The elements of `[block_start, block_end)`. -/
def slice (input : List Int) (block_start block_end : Nat) : List Int :=
  (input.drop block_start).take (block_end - block_start)

/-- `std::accumulate(first, last, acc)`: a left-to-right sum. -/
def accumulate : List Int → Int → Int
  | [], acc => acc
  | x :: xs, acc => accumulate xs (acc + x)

/-- `std::exclusive_scan(first, last, d_first, acc)` over the elements `xs`,
writing from offset `pos` of the buffer `out`: each step stores the running
value and then adds the element read. -/
def exclusive_scan : List Int → Int → Nat → List Int → Option (List Int)
  | [], _, _, out => some out
  | x :: xs, acc, pos, out =>
    match store out pos acc with
    | none => none
    | some out1 => exclusive_scan xs (acc + x) (pos + 1) out1

/-! ## The routine -/

/-- Line 34: `(length + K - 1) / K`, evaluated on the block path only, where
`2 ≤ K ≤ length`. -/
def block_size (length K : Nat) : Nat := (length + K - 1) / K

/-- The offset handed to `std::advance` for the start of block `i`
(lines 41, 61 and 66): `i * block_size`. -/
def block_start_offset (length K i : Nat) : Nat := i * block_size length K

/-- The count handed to `std::advance` for the end of a block that starts at
offset `start` (lines 43 and 63):
`std::min(block_size, (size_t)std::distance(block_start, last))`. -/
def block_count (length K start : Nat) : Nat :=
  min (block_size length K) (to_size_t ((length : Int) - (start : Int)))

/-- Lines 40-43 (repeated as 60-63): the iterators `block_start`, `block_end`
of block `i`, as offsets from `first`. -/
def block_range (length K i : Nat) : Option (Nat × Nat) :=
  match advance length 0 (block_start_offset length K i) with
  | none => none
  | some block_start =>
    match advance length block_start (block_count length K block_start) with
    | none => none
    | some block_end => some (block_start, block_end)

/-- Body of reducer thread `i` (lines 39-50), acting on `block_sums`. -/
def reducer (input : List Int) (K i : Nat) (block_sums : List Int) : Option (List Int) :=
  match block_range input.length K i with
  | none => none
  | some (block_start, block_end) =>
    if block_start ≠ block_end then
      store block_sums i (accumulate (slice input block_start block_end) 0)
    else
      store block_sums i 0

/-- Body of scanner thread `i` (lines 59-71), acting on the output buffer. -/
def scanner (input : List Int) (K : Nat) (block_offsets : List Int) (i : Nat)
    (out : List Int) : Option (List Int) :=
  match block_range input.length K i with
  | none => none
  | some (block_start, block_end) =>
    match advance out.length 0 (block_start_offset input.length K i) with
    | none => none
    | some out_block_start =>
      if block_start ≠ block_end then
        match block_offsets[i]? with
        | none => none
        | some offset =>
          exclusive_scan (slice input block_start block_end) offset out_block_start out
      else
        some out

/-- The threads of one phase, their bodies taking effect in the given order on
the shared state. -/
def run_workers {S : Type} (worker : Nat → S → Option S) : List Nat → S → Option S
  | [], s => some s
  | i :: rest, s =>
    match worker i s with
    | none => none
    | some s1 => run_workers worker rest s1

/-- What a call leaves behind: the caller's output buffer, and how many
`std::thread` objects it created. -/
structure Call where
  out : List Int
  spawned : Nat
deriving DecidableEq

/-- Lines 35-52: `block_sums(K)` filled by the `K` reducer threads. -/
def reduce_phase (input : List Int) (K : Nat) (order : List Nat) : Option (List Int) :=
  run_workers (reducer input K) order (List.replicate K 0)

/-- Lines 55-56: `block_offsets(K)` filled by the scan of `block_sums`. -/
def offset_scan (block_sums : List Int) (init : Int) (K : Nat) : Option (List Int) :=
  exclusive_scan block_sums init 0 (List.replicate K 0)

/-- Lines 58-73: the `K` scanner threads writing the output buffer. -/
def scan_phase (input : List Int) (K : Nat) (block_offsets : List Int) (order : List Nat)
    (out : List Int) : Option (List Int) :=
  run_workers (scanner input K block_offsets) order out

/-- The routine `parallel_exclusive_scan(first, last, out_first, init, K)`,
with the order in which the thread bodies of each phase take effect made
explicit.  `out` is the content of the caller's output buffer before the
call. -/
def scan_in_order (input out : List Int) (init : Int) (K : Nat)
    (order1 order2 : List Nat) : Option Call :=
  if input.length = 0 then some ⟨out, 0⟩
  else if K ≤ 1 ∨ input.length < K then
    match exclusive_scan input init 0 out with
    | none => none
    | some out1 => some ⟨out1, 0⟩
  else
    match reduce_phase input K order1 with
    | none => none
    | some block_sums =>
      match offset_scan block_sums init K with
      | none => none
      | some block_offsets =>
        match scan_phase input K block_offsets order2 out with
        | none => none
        | some out1 => some ⟨out1, K + K⟩

/-- The routine with the thread bodies taken in creation order. -/
def parallel_exclusive_scan (input out : List Int) (init : Int) (K : Nat) : Option Call :=
  scan_in_order input out init K (List.range K) (List.range K)

/-- The sequential exclusive scan in the words of the specification: position
`j` holds `init` combined with all elements strictly before `j`. -/
def spec_exclusive_scan (input : List Int) (init : Int) : List Int :=
  (List.range input.length).map fun j => init + (input.take j).sum

/-! ## Auxiliary descriptions used in the proofs -/

/-- The values an exclusive scan of `xs` seeded by `acc` stores, in order. -/
def scan_values : List Int → Int → List Int
  | [], _ => []
  | x :: xs, acc => acc :: scan_values xs (acc + x)

/-- The buffer `out` with `vals` stored from offset `pos` on. -/
def overwrite (out : List Int) (pos : Nat) (vals : List Int) : List Int :=
  out.take pos ++ vals ++ out.drop (pos + vals.length)

/-- The values scanner thread `i` stores, when its iterators are defined. -/
def scanner_values (input : List Int) (K : Nat) (block_offsets : List Int) (i : Nat) :
    Option (List Int) :=
  match block_range input.length K i with
  | none => none
  | some (block_start, block_end) =>
    if block_start ≠ block_end then
      match block_offsets[i]? with
      | none => none
      | some offset => some (scan_values (slice input block_start block_end) offset)
    else
      some []

/-- Storing `vals` from offset `pos` on, defined when they fit into `out`. -/
def place (pos : Nat) (vals : List Int) (out : List Int) : Option (List Int) :=
  if pos + vals.length ≤ out.length then some (overwrite out pos vals) else none

/-! ## The calling thread and its worker threads as a transition system -/

/-- Life of one `std::thread` of a phase: not yet created, created and running
its body, body completed. -/
inductive Thread where
  | absent
  | running
  | finished
deriving DecidableEq

/-- Program point of the calling thread on the block path. -/
inductive Pc where
  /-- Head of the loop at line 38, with its counter. -/
  | spawn_reducers (i : Nat)
  /-- Loop at line 52, with the index of the next thread to join. -/
  | join_reducers (j : Nat)
  /-- Lines 53-56: `threads.clear()` and the scan of `block_sums`. -/
  | offset_scan
  /-- Head of the loop at line 58, with its counter. -/
  | spawn_scanners (i : Nat)
  /-- Loop at line 73, with the index of the next thread to join. -/
  | join_scanners (j : Nat)
  /-- Line 74: the call has returned. -/
  | returned
deriving DecidableEq

/-- A moment of an execution: where the calling thread is, the state of the
threads of both phases, and whether `block_offsets` has been filled. -/
structure Config where
  pc : Pc
  reducers : List Thread
  scanners : List Thread
  offsets_ready : Bool
deriving DecidableEq

/-- Who moves next: the calling thread, or the body of a worker thread
running to completion. -/
inductive Action where
  | caller
  | reducer_exit (i : Nat)
  | scanner_exit (i : Nat)
deriving DecidableEq

/-- The configuration on entry to the block path (line 34). -/
def Config.entry (K : Nat) : Config :=
  ⟨Pc.spawn_reducers 0, List.replicate K Thread.absent, List.replicate K Thread.absent, false⟩

/-- One move.  `none` means the move is not possible now: `join` blocks until
the joined thread has completed, a body can only complete while it runs.
Creating a thread is taken to succeed. -/
def step (K : Nat) (c : Config) : Action → Option Config
  | Action.caller =>
    match c.pc with
    | Pc.spawn_reducers i =>
      if i < K then
        some { c with pc := Pc.spawn_reducers (i + 1), reducers := c.reducers.set i Thread.running }
      else some { c with pc := Pc.join_reducers 0 }
    | Pc.join_reducers j =>
      if j < K then
        if c.reducers[j]? = some Thread.finished then some { c with pc := Pc.join_reducers (j + 1) }
        else none
      else some { c with pc := Pc.offset_scan }
    | Pc.offset_scan => some { c with pc := Pc.spawn_scanners 0, offsets_ready := true }
    | Pc.spawn_scanners i =>
      if i < K then
        some { c with pc := Pc.spawn_scanners (i + 1), scanners := c.scanners.set i Thread.running }
      else some { c with pc := Pc.join_scanners 0 }
    | Pc.join_scanners j =>
      if j < K then
        if c.scanners[j]? = some Thread.finished then some { c with pc := Pc.join_scanners (j + 1) }
        else none
      else some { c with pc := Pc.returned }
    | Pc.returned => none
  | Action.reducer_exit i =>
    if c.reducers[i]? = some Thread.running then
      some { c with reducers := c.reducers.set i Thread.finished }
    else none
  | Action.scanner_exit i =>
    if c.scanners[i]? = some Thread.running then
      some { c with scanners := c.scanners.set i Thread.finished }
    else none

/-- An execution: the moves taken one after the other. -/
def run (K : Nat) : List Action → Config → Option Config
  | [], c => some c
  | a :: rest, c =>
    match step K c a with
    | none => none
    | some c1 => run K rest c1

/-- What the barriers have to guarantee at a moment of an execution. -/
def barriers_hold (K : Nat) (c : Config) : Prop :=
  (c.pc = Pc.offset_scan → ∀ i, i < K → c.reducers[i]? = some Thread.finished) ∧
  (∀ i, i < K → c.scanners[i]? ≠ some Thread.absent → c.offsets_ready = true) ∧
  (c.pc = Pc.returned → ∀ i, i < K → c.scanners[i]? = some Thread.finished)

/-- What holds at every moment of an execution, program point by program
point. -/
def phase_invariant (K : Nat) (c : Config) : Prop :=
  c.reducers.length = K ∧ c.scanners.length = K ∧
  match c.pc with
  | Pc.spawn_reducers _ =>
    (∀ k, k < K → c.scanners[k]? = some Thread.absent)
  | Pc.join_reducers j =>
    (∀ k, k < j → k < K → c.reducers[k]? = some Thread.finished) ∧
    (∀ k, k < K → c.scanners[k]? = some Thread.absent)
  | Pc.offset_scan =>
    (∀ k, k < K → c.reducers[k]? = some Thread.finished) ∧
    (∀ k, k < K → c.scanners[k]? = some Thread.absent)
  | Pc.spawn_scanners _ => c.offsets_ready = true
  | Pc.join_scanners j =>
    c.offsets_ready = true ∧
    (∀ k, k < j → k < K → c.scanners[k]? = some Thread.finished)
  | Pc.returned =>
    c.offsets_ready = true ∧
    (∀ k, k < K → c.scanners[k]? = some Thread.finished)

/-! ## The routine for an arbitrary element type

`parallel_exclusive_scan` is a template in `T`: the same lines, with `T{}`
as `zero` and `operator+` of `T` as `add`. -/

/-- A store `buf[pos] = x` into a buffer of `T`, defined only inside it. -/
def store_T {T : Type} (buf : List T) (pos : Nat) (x : T) : Option (List T) :=
  if pos < buf.length then some (buf.set pos x) else none

/-- The elements of `[block_start, block_end)` of a sequence of `T`. -/
def slice_T {T : Type} (input : List T) (block_start block_end : Nat) : List T :=
  (input.drop block_start).take (block_end - block_start)

/-- `std::accumulate(first, last, acc)` with the addition of `T`. -/
def accumulate_T {T : Type} (add : T → T → T) : List T → T → T
  | [], acc => acc
  | x :: xs, acc => accumulate_T add xs (add acc x)

/-- `std::exclusive_scan(first, last, d_first, acc)` with the addition of
`T`. -/
def exclusive_scan_T {T : Type} (add : T → T → T) :
    List T → T → Nat → List T → Option (List T)
  | [], _, _, out => some out
  | x :: xs, acc, pos, out =>
    match store_T out pos acc with
    | none => none
    | some out1 => exclusive_scan_T add xs (add acc x) (pos + 1) out1

/-- Body of reducer thread `i` (lines 39-50) for element type `T`. -/
def reducer_T {T : Type} (add : T → T → T) (zero : T) (input : List T) (K i : Nat)
    (block_sums : List T) : Option (List T) :=
  match block_range input.length K i with
  | none => none
  | some (block_start, block_end) =>
    if block_start ≠ block_end then
      store_T block_sums i (accumulate_T add (slice_T input block_start block_end) zero)
    else
      store_T block_sums i zero

/-- Body of scanner thread `i` (lines 59-71) for element type `T`. -/
def scanner_T {T : Type} (add : T → T → T) (input : List T) (K : Nat)
    (block_offsets : List T) (i : Nat) (out : List T) : Option (List T) :=
  match block_range input.length K i with
  | none => none
  | some (block_start, block_end) =>
    match advance out.length 0 (block_start_offset input.length K i) with
    | none => none
    | some out_block_start =>
      if block_start ≠ block_end then
        match block_offsets[i]? with
        | none => none
        | some offset =>
          exclusive_scan_T add (slice_T input block_start block_end) offset out_block_start out
      else
        some out

/-- What a call on elements of `T` leaves behind: the output buffer and the
number of threads created. -/
structure Call_T (T : Type) where
  out : List T
  spawned : Nat
deriving DecidableEq

/-- The routine for element type `T`, with the order in which the thread
bodies of each phase take effect made explicit. -/
def scan_in_order_T {T : Type} (add : T → T → T) (zero : T) (input out : List T) (init : T)
    (K : Nat) (order1 order2 : List Nat) : Option (Call_T T) :=
  if input.length = 0 then some ⟨out, 0⟩
  else if K ≤ 1 ∨ input.length < K then
    match exclusive_scan_T add input init 0 out with
    | none => none
    | some out1 => some ⟨out1, 0⟩
  else
    match run_workers (reducer_T add zero input K) order1 (List.replicate K zero) with
    | none => none
    | some block_sums =>
      match exclusive_scan_T add block_sums init 0 (List.replicate K zero) with
      | none => none
      | some block_offsets =>
        match run_workers (scanner_T add input K block_offsets) order2 out with
        | none => none
        | some out1 => some ⟨out1, K + K⟩

/-- The routine for element type `T` with the thread bodies taken in creation
order. -/
def parallel_exclusive_scan_T {T : Type} (add : T → T → T) (zero : T) (input out : List T)
    (init : T) (K : Nat) : Option (Call_T T) :=
  scan_in_order_T add zero input out init K (List.range K) (List.range K)

/-- The sequential exclusive scan over `T` in the words of the specification:
position `j` holds `init` combined, left to right, with all elements strictly
before `j`. -/
def spec_exclusive_scan_T {T : Type} (add : T → T → T) (input : List T) (init : T) : List T :=
  (List.range input.length).map fun j => (input.take j).foldl add init

/-- The values an exclusive scan over `T` stores, in order. -/
def scan_values_T {T : Type} (add : T → T → T) : List T → T → List T
  | [], _ => []
  | x :: xs, acc => acc :: scan_values_T add xs (add acc x)

/-- The buffer `out` of `T` with `vals` stored from offset `pos` on. -/
def overwrite_T {T : Type} (out : List T) (pos : Nat) (vals : List T) : List T :=
  out.take pos ++ vals ++ out.drop (pos + vals.length)

/-! ## A 32-bit element type with wrap-around addition -/

/-- A 32-bit value: a natural number below `2 ^ 32`. -/
structure Word32 where
  val : Nat
  lt : val < 2 ^ 32
deriving DecidableEq

/-- The 32-bit value of a natural number, reduced modulo `2 ^ 32`. -/
def Word32.ofNat (n : Nat) : Word32 := ⟨n % 2 ^ 32, Nat.mod_lt n (by decide)⟩

/-- Addition modulo `2 ^ 32`. -/
def Word32.add (a b : Word32) : Word32 := Word32.ofNat (a.val + b.val)

/-- The value `T{}`. -/
def Word32.zero : Word32 := ⟨0, by decide⟩

/-- The routine on 32-bit elements. -/
def parallel_exclusive_scan_32 (input out : List Word32) (init : Word32) (K : Nat) :
    Option (Call_T Word32) :=
  parallel_exclusive_scan_T Word32.add Word32.zero input out init K

/-- The sequential `std::exclusive_scan` on 32-bit elements, into `out`. -/
def exclusive_scan_32 (input : List Word32) (init : Word32) (out : List Word32) :
    Option (List Word32) :=
  exclusive_scan_T Word32.add input init 0 out

theorem scan_values_length (xs : List Int) (acc : Int) :
    (scan_values xs acc).length = xs.length := by
  induction xs generalizing acc with
  | nil => rfl
  | cons x xs ih => simp [scan_values, ih]

theorem accumulate_eq_sum (xs : List Int) (acc : Int) : accumulate xs acc = acc + xs.sum := by
  induction xs generalizing acc with
  | nil => simp [accumulate]
  | cons x xs ih => simp [accumulate, ih, add_assoc]

theorem scan_values_getElem? (xs : List Int) (acc : Int) (j : Nat) (hj : j < xs.length) :
    (scan_values xs acc)[j]? = some (acc + (xs.take j).sum) := by
  induction xs generalizing acc j with
  | nil => simp at hj
  | cons x xs ih =>
    cases j with
    | zero => simp [scan_values]
    | succ j =>
      have hj1 : j < xs.length := by simpa using hj
      simp [scan_values, ih (acc + x) j hj1, add_assoc]

theorem scan_values_eq_spec (xs : List Int) (init : Int) :
    scan_values xs init = spec_exclusive_scan xs init := by
  apply List.ext_getElem?
  intro j
  by_cases hj : j < xs.length
  · rw [scan_values_getElem? xs init j hj]
    simp [spec_exclusive_scan, List.getElem?_range hj]
  · have h1 : (scan_values xs init).length ≤ j := by
      rw [scan_values_length]; omega
    have h2 : (spec_exclusive_scan xs init).length ≤ j := by
      simp [spec_exclusive_scan]; omega
    rw [List.getElem?_eq_none h1, List.getElem?_eq_none h2]

theorem overwrite_length (out : List Int) (pos : Nat) (vals : List Int)
    (h : pos + vals.length ≤ out.length) : (overwrite out pos vals).length = out.length := by
  simp [overwrite]; omega

theorem overwrite_getElem? (out : List Int) (pos : Nat) (vals : List Int)
    (h : pos + vals.length ≤ out.length) (k : Nat) :
    (overwrite out pos vals)[k]? =
      if k < pos then out[k]? else if k < pos + vals.length then vals[k - pos]? else out[k]? := by
  have hp : (out.take pos).length = pos := by simp; omega
  unfold overwrite
  by_cases h1 : k < pos
  · rw [if_pos h1, List.append_assoc, List.getElem?_append_left (by omega),
      List.getElem?_take_of_lt h1]
  · rw [if_neg h1, List.append_assoc, List.getElem?_append_right (by omega), hp]
    by_cases h2 : k < pos + vals.length
    · rw [if_pos h2, List.getElem?_append_left (by omega)]
    · rw [if_neg h2, List.getElem?_append_right (by omega), List.getElem?_drop]
      congr 1; omega

theorem overwrite_nil (out : List Int) (pos : Nat) : overwrite out pos [] = out := by
  simp [overwrite]

theorem overwrite_all (out vals : List Int) (h : vals.length = out.length) :
    overwrite out 0 vals = vals := by
  simp [overwrite, h]

theorem exclusive_scan_eq (xs : List Int) (acc : Int) (pos : Nat) (out : List Int)
    (h : pos + xs.length ≤ out.length) :
    exclusive_scan xs acc pos out = some (overwrite out pos (scan_values xs acc)) := by
  induction xs generalizing acc pos out with
  | nil => simp [exclusive_scan, scan_values, overwrite_nil]
  | cons x xs ih =>
    have hlen : pos + (x :: xs).length = pos + 1 + xs.length := by simp; omega
    have hpos : pos < out.length := by omega
    have hset : (out.set pos acc).length = out.length := by simp
    simp only [exclusive_scan, store, if_pos hpos]
    rw [ih (acc + x) (pos + 1) (out.set pos acc) (by omega)]
    congr 1
    apply List.ext_getElem?
    intro k
    rw [overwrite_getElem? _ _ _ (by rw [scan_values_length]; omega),
      overwrite_getElem? _ _ _ (by rw [scan_values_length]; omega)]
    simp only [scan_values_length, scan_values, List.getElem?_set, List.length_cons]
    by_cases h1 : k < pos
    · simp [h1, show k < pos + 1 by omega, show pos ≠ k by omega]
    · by_cases h2 : k = pos
      · subst h2; simp [hpos]
      · have h3 : ¬ k < pos + 1 := by omega
        have h4 : k - pos = (k - (pos + 1)) + 1 := by omega
        simp only [h1, h3, if_false, h4, List.getElem?_cons_succ,
          show pos ≠ k from fun e => h2 e.symm]
        by_cases h5 : k < pos + 1 + xs.length
        · simp [h5, show k < pos + (xs.length + 1) by omega]
        · simp [h5, show ¬ k < pos + (xs.length + 1) by omega]

theorem exclusive_scan_none (xs : List Int) (acc : Int) (pos : Nat) (out : List Int)
    (hne : xs ≠ []) (h : out.length < pos + xs.length) :
    exclusive_scan xs acc pos out = none := by
  induction xs generalizing acc pos out with
  | nil => exact absurd rfl hne
  | cons x xs ih =>
    simp only [exclusive_scan, store]
    by_cases hpos : pos < out.length
    · rw [if_pos hpos]
      cases xs with
      | nil => simp at h; omega
      | cons y ys =>
        exact ih (acc + x) (pos + 1) (out.set pos acc) (by simp)
          (by simp at h ⊢; omega)
    · rw [if_neg hpos]

/-! ## Order of the thread bodies inside a phase: lemmas -/

theorem run_workers_eq_foldl {S : Type} (worker : Nat → S → Option S) (order : List Nat)
    (s : Option S) :
    order.foldl (fun st i => st.bind (worker i)) s = s.bind (run_workers worker order) := by
  induction order generalizing s with
  | nil => cases s <;> rfl
  | cons i rest ih =>
    rw [List.foldl_cons, ih]
    cases s with
    | none => rfl
    | some s0 =>
      show (worker i s0).bind (run_workers worker rest) = run_workers worker (i :: rest) s0
      rw [run_workers]
      cases worker i s0 <;> rfl

theorem run_workers_perm {S : Type} (worker : Nat → S → Option S) (l1 l2 : List Nat)
    (p : l1.Perm l2)
    (comm : ∀ x ∈ l1, ∀ y ∈ l1, ∀ s, (worker x s).bind (worker y) = (worker y s).bind (worker x))
    (s : S) : run_workers worker l1 s = run_workers worker l2 s := by
  have h := List.Perm.foldl_eq' (f := fun st i => Option.bind st (worker i)) p
    (by
      intro x hx y hy z
      cases z with
      | none => rfl
      | some s0 => exact comm x hx y hy s0)
    (some s)
  rw [run_workers_eq_foldl, run_workers_eq_foldl] at h
  simpa using h

theorem store_comm (buf : List Int) (i j : Nat) (v w : Int) (hij : i ≠ j) :
    (store buf i v).bind (fun b => store b j w) = (store buf j w).bind (fun b => store b i v) := by
  unfold store
  by_cases hi : i < buf.length <;> by_cases hj : j < buf.length <;>
    simp [hi, hj, List.set_comm v w buf hij]

theorem reducer_comm (input : List Int) (K i j : Nat) (sums : List Int) :
    (reducer input K i sums).bind (reducer input K j)
      = (reducer input K j sums).bind (reducer input K i) := by
  by_cases hij : i = j
  · subst hij; rfl
  · unfold reducer
    cases block_range input.length K i with
    | none =>
      cases block_range input.length K j with
      | none => rfl
      | some rj =>
        obtain ⟨sj, ej⟩ := rj
        simp only [Option.bind_none]
        split_ifs
        · cases store sums j (accumulate (slice input sj ej) 0) <;> rfl
        · cases store sums j 0 <;> rfl
    | some ri =>
      obtain ⟨si, ei⟩ := ri
      cases block_range input.length K j with
      | none =>
        simp only [Option.bind_none]
        split_ifs
        · cases store sums i (accumulate (slice input si ei) 0) <;> rfl
        · cases store sums i 0 <;> rfl
      | some rj =>
        obtain ⟨sj, ej⟩ := rj
        simp only []
        split_ifs <;> exact store_comm sums i j _ _ hij

theorem size_arithmetic_in_range (length K i : Nat) (hlen : length < 2 ^ 63)
    (hK : K ≤ length) (hi : i < K) :
    length + K - 1 < SIZE_MOD ∧ block_start_offset length K i < SIZE_MOD := by
  have h1 : block_size length K * K ≤ length + K - 1 := Nat.div_mul_le_self _ _
  have h2 : i * block_size length K ≤ block_size length K * K := by
    rw [Nat.mul_comm]
    exact Nat.mul_le_mul_left _ (Nat.le_of_lt hi)
  unfold block_start_offset SIZE_MOD
  constructor <;> omega

theorem to_size_t_le (d : Nat) : to_size_t (d : Int) ≤ d := by
  unfold to_size_t SIZE_MOD
  have h : ((d : Int) % ((2 ^ 64 : Nat) : Int)) = ((d % 2 ^ 64 : Nat) : Int) := by
    push_cast; rfl
  rw [h, Int.toNat_ofNat]
  exact Nat.mod_le _ _

theorem block_range_some (length K i s e : Nat) (h : block_range length K i = some (s, e)) :
    s = i * block_size length K ∧ s ≤ e ∧ e ≤ length ∧ e - s ≤ block_size length K := by
  unfold block_range advance block_start_offset at h
  by_cases h1 : 0 + i * block_size length K ≤ length
  · rw [if_pos h1] at h
    simp only [] at h
    by_cases h2 : 0 + i * block_size length K + block_count length K (0 + i * block_size length K)
        ≤ length
    · rw [if_pos h2] at h
      simp only [Option.some.injEq, Prod.mk.injEq] at h
      obtain ⟨hs, he⟩ := h
      have hc : block_count length K (0 + i * block_size length K) ≤ block_size length K :=
        Nat.min_le_left _ _
      refine ⟨by omega, by omega, by omega, by omega⟩
    · rw [if_neg h2] at h; simp at h
  · rw [if_neg h1] at h; simp at h

theorem slice_length (input : List Int) (s e : Nat) (he : e ≤ input.length) :
    (slice input s e).length = e - s := by
  simp [slice]; omega

theorem scanner_eq (input : List Int) (K : Nat) (block_offsets : List Int) (i : Nat)
    (out : List Int) :
    scanner input K block_offsets i out
      = (scanner_values input K block_offsets i).bind
          (fun vals => place (i * block_size input.length K) vals out) := by
  unfold scanner scanner_values
  cases hr : block_range input.length K i with
  | none => rfl
  | some r =>
    obtain ⟨s, e⟩ := r
    obtain ⟨hs, hse, he, -⟩ := block_range_some _ _ _ _ _ hr
    have hadv : advance out.length 0 (block_start_offset input.length K i)
        = if i * block_size input.length K ≤ out.length
          then some (i * block_size input.length K) else none := by
      simp [advance, block_start_offset]
    simp only [hadv]
    by_cases hpos : i * block_size input.length K ≤ out.length
    · simp only [if_pos hpos]
      by_cases hne : s ≠ e
      · simp only [if_pos hne]
        cases block_offsets[i]? with
        | none => rfl
        | some offset =>
          have hl : (slice input s e).length = e - s := slice_length input s e he
          have hnil : slice input s e ≠ [] := by
            intro h0; rw [h0] at hl; simp at hl; omega
          simp only [Option.some_bind, place, scan_values_length]
          by_cases hfit : i * block_size input.length K + (slice input s e).length ≤ out.length
          · rw [if_pos hfit]
            exact exclusive_scan_eq _ _ _ _ hfit
          · rw [if_neg hfit]
            exact exclusive_scan_none _ _ _ _ hnil (by omega)
      · simp [if_neg hne, place, overwrite_nil, hpos]
    · simp only [if_neg hpos]
      by_cases hne : s ≠ e
      · simp only [if_pos hne]
        cases block_offsets[i]? with
        | none => rfl
        | some offset =>
          simp only [Option.some_bind, place]
          rw [if_neg (by omega)]
      · simp [if_neg hne, place, hpos]

theorem scanner_values_length (input : List Int) (K : Nat) (block_offsets : List Int) (i : Nat)
    (vals : List Int) (h : scanner_values input K block_offsets i = some vals) :
    vals.length ≤ block_size input.length K := by
  unfold scanner_values at h
  cases hr : block_range input.length K i with
  | none => rw [hr] at h; simp at h
  | some r =>
    obtain ⟨s, e⟩ := r
    obtain ⟨hs, hse, he, hb⟩ := block_range_some _ _ _ _ _ hr
    rw [hr] at h
    simp only [] at h
    by_cases hne : s ≠ e
    · rw [if_pos hne] at h
      cases ho : block_offsets[i]? with
      | none => rw [ho] at h; simp at h
      | some offset =>
        rw [ho] at h
        simp only [Option.some.injEq] at h
        rw [← h, scan_values_length, slice_length input s e he]
        exact hb
    · rw [if_neg hne] at h
      simp only [Option.some.injEq] at h
      rw [← h]; simp

theorem overwrite_comm (out : List Int) (p1 p2 : Nat) (v1 v2 : List Int)
    (h1 : p1 + v1.length ≤ out.length) (h2 : p2 + v2.length ≤ out.length)
    (hd : p1 + v1.length ≤ p2 ∨ p2 + v2.length ≤ p1) :
    overwrite (overwrite out p1 v1) p2 v2 = overwrite (overwrite out p2 v2) p1 v1 := by
  have l1 := overwrite_length out p1 v1 h1
  have l2 := overwrite_length out p2 v2 h2
  apply List.ext_getElem?
  intro k
  rw [overwrite_getElem? (overwrite out p1 v1) p2 v2 (by omega),
    overwrite_getElem? (overwrite out p2 v2) p1 v1 (by omega)]
  simp only [overwrite_getElem? out p1 v1 h1, overwrite_getElem? out p2 v2 h2]
  split_ifs <;> first | rfl | omega

theorem place_comm (out : List Int) (p1 p2 : Nat) (v1 v2 : List Int)
    (hd : p1 + v1.length ≤ p2 ∨ p2 + v2.length ≤ p1) :
    (place p1 v1 out).bind (place p2 v2) = (place p2 v2 out).bind (place p1 v1) := by
  unfold place
  by_cases h1 : p1 + v1.length ≤ out.length <;> by_cases h2 : p2 + v2.length ≤ out.length
  · simp [h1, h2, overwrite_length, overwrite_comm out p1 p2 v1 v2 h1 h2 hd]
  · simp [h1, h2, overwrite_length]
  · simp [h1, h2, overwrite_length]
  · simp [h1, h2]

theorem scanner_comm (input : List Int) (K : Nat) (block_offsets : List Int) (i j : Nat)
    (out : List Int) :
    (scanner input K block_offsets i out).bind (scanner input K block_offsets j)
      = (scanner input K block_offsets j out).bind (scanner input K block_offsets i) := by
  by_cases hij : i = j
  · subst hij; rfl
  · have e1 : scanner input K block_offsets i = fun o =>
        (scanner_values input K block_offsets i).bind
          (fun vals => place (i * block_size input.length K) vals o) :=
      funext (scanner_eq input K block_offsets i)
    have e2 : scanner input K block_offsets j = fun o =>
        (scanner_values input K block_offsets j).bind
          (fun vals => place (j * block_size input.length K) vals o) :=
      funext (scanner_eq input K block_offsets j)
    rw [e1, e2]
    cases hvi : scanner_values input K block_offsets i with
    | none =>
      cases hvj : scanner_values input K block_offsets j with
      | none => rfl
      | some vj =>
        simp only [Option.none_bind, Option.some_bind]
        cases place (j * block_size input.length K) vj out <;> rfl
    | some vi =>
      cases hvj : scanner_values input K block_offsets j with
      | none =>
        simp only [Option.none_bind, Option.some_bind]
        cases place (i * block_size input.length K) vi out <;> rfl
      | some vj =>
        simp only [Option.some_bind]
        have li := scanner_values_length _ _ _ _ _ hvi
        have lj := scanner_values_length _ _ _ _ _ hvj
        apply place_comm
        rcases Nat.lt_or_gt_of_ne hij with hlt | hgt
        · left
          calc i * block_size input.length K + vi.length
              ≤ i * block_size input.length K + block_size input.length K := by omega
            _ = (i + 1) * block_size input.length K := by ring
            _ ≤ j * block_size input.length K := Nat.mul_le_mul_right _ hlt
        · right
          calc j * block_size input.length K + vj.length
              ≤ j * block_size input.length K + block_size input.length K := by omega
            _ = (j + 1) * block_size input.length K := by ring
            _ ≤ i * block_size input.length K := Nat.mul_le_mul_right _ hgt

/-! ## The barriers: lemmas -/

theorem getElem?_set_finished (l : List Thread) (i k : Nat)
    (h : l[k]? = some Thread.finished) : (l.set i Thread.finished)[k]? = some Thread.finished := by
  rw [List.getElem?_set]
  by_cases hik : i = k
  · subst hik
    have hlt : i < l.length := by
      by_contra hge
      rw [List.getElem?_eq_none (by omega)] at h
      simp at h
    simp [hlt]
  · simp [hik, h]

theorem phase_invariant_entry (K : Nat) : phase_invariant K (Config.entry K) := by
  refine ⟨by simp [Config.entry], by simp [Config.entry], ?_⟩
  intro k hk
  simp [Config.entry, hk]

theorem no_exit_of_absent (l : List Thread) (K i : Nat) (hl : l.length = K)
    (h : ∀ k, k < K → l[k]? = some Thread.absent) : l[i]? ≠ some Thread.running := by
  by_cases hi : i < K
  · rw [h i hi]; simp
  · rw [List.getElem?_eq_none (by omega)]; simp

theorem phase_invariant_step (K : Nat) (c c1 : Config) (a : Action)
    (hinv : phase_invariant K c) (hstep : step K c a = some c1) : phase_invariant K c1 := by
  obtain ⟨pc, reducers, scanners, ready⟩ := c
  obtain ⟨hr, hs, hpc⟩ := hinv
  simp only at hr hs
  cases a with
  | caller =>
    cases pc with
    | spawn_reducers i =>
      simp only [step] at hstep
      by_cases hi : i < K
      · rw [if_pos hi] at hstep
        simp only [Option.some.injEq] at hstep
        subst hstep
        exact ⟨by simpa using hr, hs, hpc⟩
      · rw [if_neg hi] at hstep
        simp only [Option.some.injEq] at hstep
        subst hstep
        exact ⟨hr, hs, fun k hk _ => absurd hk (Nat.not_lt_zero k), hpc⟩
    | join_reducers j =>
      simp only [step] at hstep
      obtain ⟨hfin, habs⟩ := hpc
      by_cases hj : j < K
      · rw [if_pos hj] at hstep
        by_cases hd : reducers[j]? = some Thread.finished
        · rw [if_pos hd] at hstep
          simp only [Option.some.injEq] at hstep
          subst hstep
          refine ⟨hr, hs, ?_, habs⟩
          intro k hk hkK
          by_cases hkj : k = j
          · subst hkj; exact hd
          · exact hfin k (by omega) hkK
        · rw [if_neg hd] at hstep
          simp at hstep
      · rw [if_neg hj] at hstep
        simp only [Option.some.injEq] at hstep
        subst hstep
        exact ⟨hr, hs, fun k hk => hfin k (by omega) hk, habs⟩
    | offset_scan =>
      simp only [step, Option.some.injEq] at hstep
      subst hstep
      exact ⟨hr, hs, rfl⟩
    | spawn_scanners i =>
      simp only [step] at hstep
      by_cases hi : i < K
      · rw [if_pos hi] at hstep
        simp only [Option.some.injEq] at hstep
        subst hstep
        exact ⟨hr, by simpa using hs, hpc⟩
      · rw [if_neg hi] at hstep
        simp only [Option.some.injEq] at hstep
        subst hstep
        exact ⟨hr, hs, hpc, fun k hk _ => absurd hk (Nat.not_lt_zero k)⟩
    | join_scanners j =>
      simp only [step] at hstep
      obtain ⟨hready, hfin⟩ := hpc
      by_cases hj : j < K
      · rw [if_pos hj] at hstep
        by_cases hd : scanners[j]? = some Thread.finished
        · rw [if_pos hd] at hstep
          simp only [Option.some.injEq] at hstep
          subst hstep
          refine ⟨hr, hs, hready, ?_⟩
          intro k hk hkK
          by_cases hkj : k = j
          · subst hkj; exact hd
          · exact hfin k (by omega) hkK
        · rw [if_neg hd] at hstep
          simp at hstep
      · rw [if_neg hj] at hstep
        simp only [Option.some.injEq] at hstep
        subst hstep
        exact ⟨hr, hs, hready, fun k hk => hfin k (by omega) hk⟩
    | returned => simp [step] at hstep
  | reducer_exit i =>
    simp only [step] at hstep
    by_cases hd : reducers[i]? = some Thread.running
    · rw [if_pos hd] at hstep
      simp only [Option.some.injEq] at hstep
      subst hstep
      refine ⟨by simpa using hr, hs, ?_⟩
      cases pc with
      | spawn_reducers i0 => exact hpc
      | join_reducers j =>
        exact ⟨fun k hk hkK => getElem?_set_finished _ _ _ (hpc.1 k hk hkK), hpc.2⟩
      | offset_scan =>
        exact ⟨fun k hk => getElem?_set_finished _ _ _ (hpc.1 k hk), hpc.2⟩
      | spawn_scanners i0 => exact hpc
      | join_scanners j => exact hpc
      | returned => exact hpc
    · rw [if_neg hd] at hstep
      simp at hstep
  | scanner_exit i =>
    simp only [step] at hstep
    by_cases hd : scanners[i]? = some Thread.running
    · rw [if_pos hd] at hstep
      simp only [Option.some.injEq] at hstep
      subst hstep
      refine ⟨hr, by simpa using hs, ?_⟩
      cases pc with
      | spawn_reducers i0 => exact absurd hd (no_exit_of_absent _ K i hs hpc)
      | join_reducers j => exact absurd hd (no_exit_of_absent _ K i hs hpc.2)
      | offset_scan => exact absurd hd (no_exit_of_absent _ K i hs hpc.2)
      | spawn_scanners i0 => exact hpc
      | join_scanners j =>
        exact ⟨hpc.1, fun k hk hkK => getElem?_set_finished _ _ _ (hpc.2 k hk hkK)⟩
      | returned =>
        exact ⟨hpc.1, fun k hk => getElem?_set_finished _ _ _ (hpc.2 k hk)⟩
    · rw [if_neg hd] at hstep
      simp at hstep

theorem phase_invariant_run (K : Nat) (moves : List Action) (c c1 : Config)
    (hinv : phase_invariant K c) (hrun : run K moves c = some c1) : phase_invariant K c1 := by
  induction moves generalizing c with
  | nil =>
    simp only [run, Option.some.injEq] at hrun
    subst hrun
    exact hinv
  | cons a rest ih =>
    rw [run] at hrun
    cases hs : step K c a with
    | none => rw [hs] at hrun; simp at hrun
    | some c2 =>
      rw [hs] at hrun
      exact ih c2 (phase_invariant_step K c c2 a hinv hs) hrun

theorem barriers_of_invariant (K : Nat) (c : Config) (hinv : phase_invariant K c) :
    barriers_hold K c := by
  obtain ⟨pc, reducers, scanners, ready⟩ := c
  obtain ⟨hr, hs, hpc⟩ := hinv
  simp only at hr hs
  refine ⟨?_, ?_, ?_⟩
  · intro h
    simp only at h
    subst h
    exact hpc.1
  · intro i hi hne
    cases pc with
    | spawn_reducers i0 => exact absurd (hpc i hi) hne
    | join_reducers j => exact absurd (hpc.2 i hi) hne
    | offset_scan => exact absurd (hpc.2 i hi) hne
    | spawn_scanners i0 => exact hpc
    | join_scanners j => exact hpc.1
    | returned => exact hpc.1
  · intro h
    simp only at h
    subst h
    exact hpc.2

/-! ## The fallback path: lemmas -/

theorem fallback_eq (input out : List Int) (init : Int) (K : Nat) (order1 order2 : List Nat)
    (hout : out.length = input.length) (hK : K ≤ 1 ∨ input.length < K) :
    scan_in_order input out init K order1 order2
      = some ⟨spec_exclusive_scan input init, 0⟩ := by
  unfold scan_in_order
  by_cases h0 : input.length = 0
  · have hin : input = [] := List.length_eq_zero.mp h0
    have ho : out = [] := List.length_eq_zero.mp (by omega)
    subst hin; subst ho
    rfl
  · rw [if_neg h0, if_pos hK, exclusive_scan_eq input init 0 out (by omega),
      overwrite_all out _ (by rw [scan_values_length]; omega), scan_values_eq_spec]

/-! ## The claims -/

/-- C1, evaluated at the failing input: for `input = [1,1,1,1,1]` and `K = 4`
(so `1 ≤ K ≤ N`) block 3 starts at offset 6, past the end of the input, and the
call is undefined for every output buffer and every `init`, whereas the
sequential scan seeded by 0 is `[0,1,2,3,4]`. -/
theorem equivalence_to_baseline_fails (out : List Int) (init : Int) :
    (1 ≤ 4 ∧ 4 ≤ ([1, 1, 1, 1, 1] : List Int).length) ∧
    parallel_exclusive_scan [1, 1, 1, 1, 1] out init 4 = none ∧
    spec_exclusive_scan [1, 1, 1, 1, 1] 0 = [0, 1, 2, 3, 4] :=
  ⟨by decide, rfl, by decide⟩

/-- C2: on the fallback path (`K ≤ 1` or `K > N`) the call creates no thread
and leaves in the output buffer the sequential exclusive scan of the whole
input seeded by `init`. -/
theorem fallback_equivalence (input out : List Int) (init : Int) (K : Nat)
    (hout : out.length = input.length) (hK : K ≤ 1 ∨ input.length < K) :
    parallel_exclusive_scan input out init K = some ⟨spec_exclusive_scan input init, 0⟩ :=
  fallback_eq input out init K _ _ hout hK

/-- Scenario B as an instance of C2: input `[5]`, `init = 10`, `K = 4`. -/
theorem fallback_equivalence_witness :
    ([0] : List Int).length = ([5] : List Int).length ∧ (4 ≤ 1 ∨ ([5] : List Int).length < 4) ∧
    parallel_exclusive_scan [5] [0] 10 4 = some ⟨spec_exclusive_scan [5] 10, 0⟩ ∧
    spec_exclusive_scan [5] 10 = [10] :=
  ⟨rfl, by decide, fallback_equivalence [5] [0] 10 4 rfl (by decide), by decide⟩

/-- C3 as stated fails: with `K = 0` the call on `[1,2,3]` with `init = 7` is
not rejected, it returns the output `[7,8,10]`. -/
theorem zero_K_not_rejected :
    parallel_exclusive_scan [1, 2, 3] [0, 0, 0] 7 0 = some ⟨[7, 8, 10], 0⟩ ∧
    parallel_exclusive_scan [1, 2, 3] [0, 0, 0] 7 0 ≠ none :=
  ⟨by decide, by decide⟩

/-- C3, amended: with `K = 0` the call does not fail; it takes the fallback
path, creates no thread and returns the sequential exclusive scan seeded by
`init`. -/
theorem zero_K_falls_back (input out : List Int) (init : Int)
    (hout : out.length = input.length) :
    parallel_exclusive_scan input out init 0 = some ⟨spec_exclusive_scan input init, 0⟩ :=
  fallback_eq input out init 0 _ _ hout (Or.inl (Nat.zero_le 1))

/-- An instance of the amended C3. -/
theorem zero_K_falls_back_witness :
    ([0, 0, 0] : List Int).length = ([1, 2, 3] : List Int).length ∧
    parallel_exclusive_scan [1, 2, 3] [0, 0, 0] 7 0 = some ⟨spec_exclusive_scan [1, 2, 3] 7, 0⟩ :=
  ⟨rfl, zero_K_falls_back [1, 2, 3] [0, 0, 0] 7 rfl⟩

/-- C4, evaluated at the failing input: for `N = 5`, `K = 4` the four ranges
the workers compute are `[0,2)`, `[2,4)`, `[4,5)` and `[6,8)`; the last one
lies outside `[0,5)`, its start iterator is undefined, and scanner 3 is
undefined for every `block_offsets` and every output buffer. -/
theorem block_ranges_leave_input (block_offsets out : List Int) :
    (2 ≤ 4 ∧ 4 ≤ 5) ∧
    (List.range 4).map (fun i => (block_start_offset 5 4 i,
        block_start_offset 5 4 i + block_count 5 4 (block_start_offset 5 4 i)))
      = [(0, 2), (2, 4), (4, 5), (6, 8)] ∧
    block_range 5 4 3 = none ∧
    scanner [1, 1, 1, 1, 1] 4 block_offsets 3 out = none :=
  ⟨by decide, by decide, by decide, rfl⟩

/-- C5, evaluated at the failing input: for `N = 5`, `K = 4`, `i = 3` the code
moves `block_start` by `3 * block_size = 6`, not by `min(6, 5) = 5`, and the
end offset it computes is `8`, not `min(5 + 2, 5) = 5`. -/
theorem partitioner_start_not_clamped :
    block_size 5 4 = 2 ∧
    block_start_offset 5 4 3 = 6 ∧ min (3 * block_size 5 4) 5 = 5 ∧
    block_start_offset 5 4 3 + block_count 5 4 (block_start_offset 5 4 3) = 8 ∧
    min (min (3 * block_size 5 4) 5 + block_size 5 4) 5 = 5 :=
  ⟨by decide, by decide, by decide, by decide, by decide⟩

/-- C6: on the empty input the call returns at once for every `K`: the output
buffer is left as it was (for a buffer of length 0, the empty sequence) and no
thread is created. -/
theorem empty_input (out : List Int) (init : Int) (K : Nat) :
    parallel_exclusive_scan [] out init K = some ⟨out, 0⟩ ∧
    parallel_exclusive_scan [] [] init K = some ⟨[], 0⟩ :=
  ⟨rfl, rfl⟩

/-- C7, evaluated at the failing input: for an input of length 7 and `K = 5`
the scanner ranges are `[0,2)`, `[2,4)`, `[4,6)`, `[6,7)` and `[8,10)`, so
positions 8 and 9 are targeted although the output has length 7; the call is
undefined and produces no sequence of length 7. -/
theorem written_positions_leave_output (out : List Int) (init : Int) :
    (List.range 5).map (fun i => (block_start_offset 7 5 i,
        block_start_offset 7 5 i + block_count 7 5 (block_start_offset 7 5 i)))
      = [(0, 2), (2, 4), (4, 6), (6, 7), (8, 10)] ∧
    parallel_exclusive_scan [1, 2, 3, 4, 5, 6, 7] out init 5 = none :=
  ⟨by decide, rfl⟩

/-- C8: scenario A.  For input `[3,1,4,1,5,9,2,6]`, `init = 0`, `K = 3` the
block ranges are `[0,3)`, `[3,6)`, `[6,8)`, the block sums `[8,15,8]`, the block
offsets `[0,8,23]` and the output `[0,3,4,8,9,14,23,25]`, whatever the output
buffer of length 8 held before. -/
theorem scenario_A (o0 o1 o2 o3 o4 o5 o6 o7 : Int) :
    (List.range 3).map (block_range 8 3) = [some (0, 3), some (3, 6), some (6, 8)] ∧
    reduce_phase [3, 1, 4, 1, 5, 9, 2, 6] 3 (List.range 3) = some [8, 15, 8] ∧
    offset_scan [8, 15, 8] 0 3 = some [0, 8, 23] ∧
    parallel_exclusive_scan [3, 1, 4, 1, 5, 9, 2, 6] [o0, o1, o2, o3, o4, o5, o6, o7] 0 3
      = some ⟨[0, 3, 4, 8, 9, 14, 23, 25], 6⟩ :=
  ⟨by decide, by decide, by decide, rfl⟩

/-- The order in which the thread bodies of the reducer phase and of the
scanner phase take effect does not change the outcome of a call, defined or
undefined. -/
theorem outcome_order_independent (input out : List Int) (init : Int) (K : Nat) (a1 a2 b1 b2 : List Nat)
    (ha1 : a1.Perm (List.range K)) (ha2 : a2.Perm (List.range K))
    (hb1 : b1.Perm (List.range K)) (hb2 : b2.Perm (List.range K)) :
    scan_in_order input out init K a1 a2 = scan_in_order input out init K b1 b2 := by
  have h1 : reduce_phase input K a1 = reduce_phase input K b1 :=
    run_workers_perm _ a1 b1 (ha1.trans hb1.symm)
      (fun x _ y _ s => reducer_comm input K x y s) _
  have h2 : ∀ offs, scan_phase input K offs a2 out = scan_phase input K offs b2 out :=
    fun offs => run_workers_perm _ a2 b2 (ha2.trans hb2.symm)
      (fun x _ y _ s => scanner_comm input K offs x y s) _
  unfold scan_in_order
  rw [h1]
  simp only [h2]

/-- Scenario A with the thread bodies taken in two different orders. -/
theorem outcome_order_independent_example :
    ([2, 0, 1] : List Nat).Perm (List.range 3) ∧ ([1, 2, 0] : List Nat).Perm (List.range 3) ∧
    ([0, 1, 2] : List Nat).Perm (List.range 3) ∧ ([2, 1, 0] : List Nat).Perm (List.range 3) ∧
    scan_in_order [3, 1, 4, 1, 5, 9, 2, 6] [0, 0, 0, 0, 0, 0, 0, 0] 0 3 [2, 0, 1] [1, 2, 0]
      = scan_in_order [3, 1, 4, 1, 5, 9, 2, 6] [0, 0, 0, 0, 0, 0, 0, 0] 0 3 [0, 1, 2] [2, 1, 0] ∧
    scan_in_order [3, 1, 4, 1, 5, 9, 2, 6] [0, 0, 0, 0, 0, 0, 0, 0] 0 3 [2, 0, 1] [1, 2, 0]
      = some ⟨[0, 3, 4, 8, 9, 14, 23, 25], 6⟩ :=
  ⟨by decide, by decide, by decide, by decide,
    outcome_order_independent [3, 1, 4, 1, 5, 9, 2, 6] [0, 0, 0, 0, 0, 0, 0, 0] 0 3 [2, 0, 1]
      [1, 2, 0]
      [0, 1, 2] [2, 1, 0] (by decide) (by decide) (by decide) (by decide),
    by decide⟩

/-- C10: at every moment of every execution of the block path, the calling
thread is at the scan of `block_sums` only if all `K` reducer threads have
completed, a scanner thread exists only if `block_offsets` has been filled, and
the call has returned only if all `K` scanner threads have completed. -/
theorem barrier_ordering (K : Nat) (moves : List Action) (c : Config)
    (h : run K moves (Config.entry K) = some c) : barriers_hold K c :=
  barriers_of_invariant K c (phase_invariant_run K moves _ c (phase_invariant_entry K) h)

/-- A complete execution with two blocks in which the threads complete out of
creation order. -/
theorem barrier_ordering_witness :
    run 2 [Action.caller, Action.caller, Action.reducer_exit 1, Action.caller,
        Action.reducer_exit 0, Action.caller, Action.caller, Action.caller, Action.caller,
        Action.caller, Action.scanner_exit 0, Action.caller, Action.caller, Action.caller,
        Action.scanner_exit 1, Action.caller, Action.caller] (Config.entry 2)
      = some ⟨Pc.returned, [Thread.finished, Thread.finished],
          [Thread.finished, Thread.finished], true⟩ ∧
    barriers_hold 2 ⟨Pc.returned, [Thread.finished, Thread.finished],
      [Thread.finished, Thread.finished], true⟩ :=
  ⟨by decide,
    barrier_ordering 2 [Action.caller, Action.caller, Action.reducer_exit 1, Action.caller,
        Action.reducer_exit 0, Action.caller, Action.caller, Action.caller, Action.caller,
        Action.caller, Action.scanner_exit 0, Action.caller, Action.caller, Action.caller,
        Action.scanner_exit 1, Action.caller, Action.caller]
      ⟨Pc.returned, [Thread.finished, Thread.finished], [Thread.finished, Thread.finished], true⟩
      (by decide)⟩

/-! ## The block path for an arbitrary element type: lemmas -/

theorem scan_values_T_length {T : Type} (add : T → T → T) (xs : List T) (acc : T) :
    (scan_values_T add xs acc).length = xs.length := by
  induction xs generalizing acc with
  | nil => rfl
  | cons x xs ih => simp [scan_values_T, ih]

theorem scan_values_T_getElem? {T : Type} (add : T → T → T) (xs : List T) (acc : T) (j : Nat)
    (hj : j < xs.length) :
    (scan_values_T add xs acc)[j]? = some ((xs.take j).foldl add acc) := by
  induction xs generalizing acc j with
  | nil => simp at hj
  | cons x xs ih =>
    cases j with
    | zero => simp [scan_values_T]
    | succ j =>
      have hj1 : j < xs.length := by simpa using hj
      simp [scan_values_T, ih (add acc x) j hj1]

theorem accumulate_T_eq_foldl {T : Type} (add : T → T → T) (xs : List T) (acc : T) :
    accumulate_T add xs acc = xs.foldl add acc := by
  induction xs generalizing acc with
  | nil => rfl
  | cons x xs ih => simp [accumulate_T, ih]

theorem foldl_add_assoc {T : Type} (add : T → T → T)
    (hassoc : ∀ a b c, add (add a b) c = add a (add b c)) (xs : List T) (a b : T) :
    xs.foldl add (add a b) = add a (xs.foldl add b) := by
  induction xs generalizing b with
  | nil => rfl
  | cons x xs ih => simp [List.foldl_cons, hassoc, ih]

theorem overwrite_T_length {T : Type} (out : List T) (pos : Nat) (vals : List T)
    (h : pos + vals.length ≤ out.length) : (overwrite_T out pos vals).length = out.length := by
  simp [overwrite_T]; omega

theorem overwrite_T_getElem? {T : Type} (out : List T) (pos : Nat) (vals : List T)
    (h : pos + vals.length ≤ out.length) (k : Nat) :
    (overwrite_T out pos vals)[k]? =
      if k < pos then out[k]? else if k < pos + vals.length then vals[k - pos]? else out[k]? := by
  have hp : (out.take pos).length = pos := by simp; omega
  unfold overwrite_T
  by_cases h1 : k < pos
  · rw [if_pos h1, List.append_assoc, List.getElem?_append_left (by omega),
      List.getElem?_take_of_lt h1]
  · rw [if_neg h1, List.append_assoc, List.getElem?_append_right (by omega), hp]
    by_cases h2 : k < pos + vals.length
    · rw [if_pos h2, List.getElem?_append_left (by omega)]
    · rw [if_neg h2, List.getElem?_append_right (by omega), List.getElem?_drop]
      congr 1; omega

theorem exclusive_scan_T_eq {T : Type} (add : T → T → T) (xs : List T) (acc : T) (pos : Nat)
    (out : List T) (h : pos + xs.length ≤ out.length) :
    exclusive_scan_T add xs acc pos out
      = some (overwrite_T out pos (scan_values_T add xs acc)) := by
  induction xs generalizing acc pos out with
  | nil => simp [exclusive_scan_T, scan_values_T, overwrite_T]
  | cons x xs ih =>
    have hlen : pos + (x :: xs).length = pos + 1 + xs.length := by simp; omega
    have hpos : pos < out.length := by omega
    have hset : (out.set pos acc).length = out.length := by simp
    simp only [exclusive_scan_T, store_T, if_pos hpos]
    rw [ih (add acc x) (pos + 1) (out.set pos acc) (by omega)]
    congr 1
    apply List.ext_getElem?
    intro k
    rw [overwrite_T_getElem? _ _ _ (by rw [scan_values_T_length]; omega),
      overwrite_T_getElem? _ _ _ (by rw [scan_values_T_length]; omega)]
    simp only [scan_values_T_length, scan_values_T, List.getElem?_set, List.length_cons]
    by_cases h1 : k < pos
    · simp [h1, show k < pos + 1 by omega, show pos ≠ k by omega]
    · by_cases h2 : k = pos
      · subst h2; simp [hpos]
      · have h3 : ¬ k < pos + 1 := by omega
        have h4 : k - pos = (k - (pos + 1)) + 1 := by omega
        simp only [h1, h3, if_false, h4, List.getElem?_cons_succ,
          show pos ≠ k from fun e => h2 e.symm]
        by_cases h5 : k < pos + 1 + xs.length
        · simp [h5, show k < pos + (xs.length + 1) by omega]
        · simp [h5, show ¬ k < pos + (xs.length + 1) by omega]

theorem slice_T_length {T : Type} (input : List T) (s e : Nat) (he : e ≤ input.length) :
    (slice_T input s e).length = e - s := by
  simp [slice_T]; omega

theorem take_append_slice_T {T : Type} (input : List T) (s e : Nat) (hse : s ≤ e) :
    input.take s ++ slice_T input s e = input.take e := by
  unfold slice_T
  have h : e = s + (e - s) := by omega
  conv_rhs => rw [h, List.take_add]

theorem to_size_t_eq (d : Nat) (hd : d < SIZE_MOD) : to_size_t (d : Int) = d := by
  unfold to_size_t
  have h : ((d : Int) % ((SIZE_MOD : Nat) : Int)) = ((d % SIZE_MOD : Nat) : Int) := by
    push_cast; rfl
  rw [h, Int.toNat_ofNat, Nat.mod_eq_of_lt hd]

theorem block_range_eq (length K i : Nat) (hlen : length < SIZE_MOD)
    (hi : i * block_size length K ≤ length) :
    block_range length K i
      = some (i * block_size length K, min ((i + 1) * block_size length K) length) := by
  have hsub : ((length : Int) - ((i * block_size length K : Nat) : Int))
      = ((length - i * block_size length K : Nat) : Int) := by
    rw [Int.ofNat_sub hi]
  have hc : block_count length K (i * block_size length K)
      = min (block_size length K) (length - i * block_size length K) := by
    unfold block_count
    rw [hsub, to_size_t_eq _ (by omega)]
  unfold block_range advance block_start_offset
  simp only [Nat.zero_add, if_pos hi, hc]
  have h2 : i * block_size length K + min (block_size length K) (length - i * block_size length K)
      ≤ length := by omega
  rw [if_pos h2]
  have h3 : i * block_size length K + min (block_size length K) (length - i * block_size length K)
      = min ((i + 1) * block_size length K) length := by
    rw [Nat.add_mul, Nat.one_mul]
    omega
  rw [h3]

theorem run_workers_append {S : Type} (worker : Nat → S → Option S) (l1 l2 : List Nat) (s : S) :
    run_workers worker (l1 ++ l2) s = (run_workers worker l1 s).bind (run_workers worker l2) := by
  induction l1 generalizing s with
  | nil => rfl
  | cons i rest ih =>
    simp only [List.cons_append, run_workers]
    cases worker i s with
    | none => rfl
    | some s1 => exact ih s1

theorem run_workers_range {S : Type} (worker : Nat → S → Option S) (P : Nat → S → Prop) (K : Nat)
    (s0 : S) (h0 : P 0 s0)
    (hstep : ∀ n, n < K → ∀ s, P n s → ∃ s1, worker n s = some s1 ∧ P (n + 1) s1) :
    ∀ n, n ≤ K → ∃ s, run_workers worker (List.range n) s0 = some s ∧ P n s := by
  intro n
  induction n with
  | zero => intro _; exact ⟨s0, rfl, h0⟩
  | succ n ih =>
    intro hn
    obtain ⟨s, hs, hP⟩ := ih (by omega)
    obtain ⟨s1, hw, hP1⟩ := hstep n (by omega) s hP
    refine ⟨s1, ?_, hP1⟩
    rw [List.range_succ, run_workers_append, hs]
    simp [run_workers, hw]

theorem reducer_T_eq {T : Type} (add : T → T → T) (zero : T) (input : List T) (K i s e : Nat)
    (sums : List T) (hr : block_range input.length K i = some (s, e)) (hi : i < sums.length) :
    reducer_T add zero input K i sums
      = some (sums.set i (accumulate_T add (slice_T input s e) zero)) := by
  unfold reducer_T
  rw [hr]
  simp only [store_T, if_pos hi]
  by_cases hne : s ≠ e
  · rw [if_pos hne]
  · have hse : s = e := not_not.mp hne
    rw [if_neg hne, hse]
    simp [slice_T, accumulate_T]

theorem reduce_phase_T_eq {T : Type} (add : T → T → T) (zero : T) (input : List T) (K : Nat)
    (hlen : input.length < SIZE_MOD)
    (hin : ∀ i, i < K → i * block_size input.length K ≤ input.length) :
    ∃ sums, run_workers (reducer_T add zero input K) (List.range K) (List.replicate K zero)
        = some sums ∧ sums.length = K ∧
      ∀ i, i < K → sums[i]? = some (accumulate_T add (slice_T input
        (i * block_size input.length K)
        (min ((i + 1) * block_size input.length K) input.length)) zero) := by
  have h := run_workers_range (reducer_T add zero input K)
    (fun n sums => sums.length = K ∧ ∀ i, i < n → sums[i]? = some (accumulate_T add (slice_T input
        (i * block_size input.length K)
        (min ((i + 1) * block_size input.length K) input.length)) zero))
    K (List.replicate K zero)
    ⟨by simp, fun i hi => absurd hi (Nat.not_lt_zero i)⟩
    (by
      intro n hn sums hP
      obtain ⟨hl, hv⟩ := hP
      refine ⟨_, reducer_T_eq add zero input K n _ _ sums
        (block_range_eq _ K n hlen (hin n hn)) (by omega), by simpa using hl, ?_⟩
      intro i hi
      rw [List.getElem?_set]
      by_cases hni : n = i
      · subst hni
        simp [hl, hn]
      · rw [if_neg hni]
        exact hv i (by omega))
    K (Nat.le_refl K)
  exact h

theorem offset_scan_T_eq {T : Type} (add : T → T → T) (zero : T) (sums : List T) (init : T)
    (K : Nat) (hl : sums.length = K) :
    exclusive_scan_T add sums init 0 (List.replicate K zero)
      = some (scan_values_T add sums init) := by
  rw [exclusive_scan_T_eq add sums init 0 _ (by simp [hl])]
  simp [overwrite_T, scan_values_T_length, hl]

theorem foldl_block_sums {T : Type} (add : T → T → T) (zero : T)
    (hassoc : ∀ a b c, add (add a b) c = add a (add b c)) (hzero : ∀ a, add a zero = a)
    (input sums : List T) (init : T) (K : Nat)
    (hv : ∀ i, i < K → sums[i]? = some (accumulate_T add (slice_T input
        (i * block_size input.length K)
        (min ((i + 1) * block_size input.length K) input.length)) zero)) :
    ∀ i, i ≤ K → i * block_size input.length K ≤ input.length →
      (sums.take i).foldl add init = (input.take (i * block_size input.length K)).foldl add init := by
  intro i
  induction i with
  | zero => intro _ _; simp
  | succ i ih =>
    intro hi hin
    have hmul : (i + 1) * block_size input.length K
        = i * block_size input.length K + block_size input.length K := by
      rw [Nat.add_mul, Nat.one_mul]
    have hin0 : i * block_size input.length K ≤ input.length := by omega
    have hmin : min ((i + 1) * block_size input.length K) input.length
        = (i + 1) * block_size input.length K := Nat.min_eq_left hin
    rw [List.take_succ, hv i (by omega), hmin]
    simp only [Option.toList, List.foldl_append, List.foldl_cons, List.foldl_nil]
    rw [ih (by omega) hin0, accumulate_T_eq_foldl,
      ← foldl_add_assoc add hassoc, hzero, ← List.foldl_append,
      take_append_slice_T input _ _ (by omega)]

theorem scanner_T_eq {T : Type} (add : T → T → T) (input : List T) (K i s e : Nat)
    (offsets out : List T) (off : T)
    (hr : block_range input.length K i = some (s, e))
    (hs : s = i * block_size input.length K) (he : e ≤ input.length)
    (hoff : offsets[i]? = some off) (hfit : s + (e - s) ≤ out.length) :
    scanner_T add input K offsets i out
      = some (overwrite_T out s (scan_values_T add (slice_T input s e) off)) := by
  unfold scanner_T
  rw [hr]
  have hadv : advance out.length 0 (block_start_offset input.length K i) = some s := by
    simp only [advance, block_start_offset, Nat.zero_add, ← hs]
    rw [if_pos (by omega)]
  simp only [hadv, hoff]
  by_cases hne : s ≠ e
  · rw [if_pos hne]
    exact exclusive_scan_T_eq add _ off s out (by rw [slice_T_length input s e he]; exact hfit)
  · have hse : s = e := not_not.mp hne
    rw [if_neg hne, hse]
    simp [slice_T, scan_values_T, overwrite_T]

theorem take_slice_T {T : Type} (input : List T) (s e j : Nat) (hj : s + j ≤ e) :
    input.take s ++ (slice_T input s e).take j = input.take (s + j) := by
  unfold slice_T
  rw [List.take_take, Nat.min_eq_left (by omega), List.take_add]

theorem scan_phase_T_eq {T : Type} (add : T → T → T) (input out offsets : List T) (init : T)
    (K : Nat) (hlen : input.length < SIZE_MOD) (hout : out.length = input.length)
    (hin : ∀ i, i < K → i * block_size input.length K ≤ input.length)
    (hoff : ∀ i, i < K → offsets[i]?
      = some ((input.take (i * block_size input.length K)).foldl add init)) :
    ∃ out1, run_workers (scanner_T add input K offsets) (List.range K) out = some out1 ∧
      out1.length = input.length ∧
      ∀ k, k < K * block_size input.length K → k < input.length →
        out1[k]? = some ((input.take k).foldl add init) := by
  have h := run_workers_range (scanner_T add input K offsets)
    (fun n o => o.length = input.length ∧
      ∀ k, k < n * block_size input.length K → k < input.length →
        o[k]? = some ((input.take k).foldl add init))
    K out
    ⟨hout, fun k hk => by simp at hk⟩
    (by
      intro n hn o hP
      obtain ⟨hl, hv⟩ := hP
      have hmul : (n + 1) * block_size input.length K
          = n * block_size input.length K + block_size input.length K := by
        rw [Nat.add_mul, Nat.one_mul]
      have hs := hin n hn
      have hsl : (slice_T input (n * block_size input.length K)
          (min ((n + 1) * block_size input.length K) input.length)).length
          = min ((n + 1) * block_size input.length K) input.length
            - n * block_size input.length K :=
        slice_T_length input _ _ (Nat.min_le_right _ _)
      have hfit : n * block_size input.length K
          + (min ((n + 1) * block_size input.length K) input.length
            - n * block_size input.length K) ≤ o.length := by omega
      refine ⟨_, scanner_T_eq add input K n _ _ offsets o _
        (block_range_eq _ K n hlen hs) rfl (Nat.min_le_right _ _)
        (hoff n hn) hfit, ?_, ?_⟩
      · rw [overwrite_T_length _ _ _ (by rw [scan_values_T_length, hsl]; exact hfit)]
        exact hl
      · intro k hk hkN
        rw [overwrite_T_getElem? _ _ _ (by rw [scan_values_T_length, hsl]; exact hfit)]
        by_cases h1 : k < n * block_size input.length K
        · rw [if_pos h1]
          exact hv k h1 hkN
        · rw [if_neg h1, scan_values_T_length, hsl, if_pos (by omega),
            scan_values_T_getElem? add _ _ _ (by rw [hsl]; omega),
            ← List.foldl_append, take_slice_T input _ _ _ (by omega)]
          congr 3
          omega)
    K (Nat.le_refl K)
  exact h

theorem blocks_cover (length K : Nat) (hK : 0 < K) : length ≤ K * block_size length K := by
  unfold block_size
  have h1 := Nat.div_add_mod (length + K - 1) K
  have h2 := Nat.mod_lt (length + K - 1) hK
  omega

theorem starts_in_range (length K : Nat) (h : (K - 1) * block_size length K ≤ length) (i : Nat)
    (hi : i < K) : i * block_size length K ≤ length :=
  Nat.le_trans (Nat.mul_le_mul_right _ (by omega)) h

theorem block_path_T_eq {T : Type} (add : T → T → T) (zero : T)
    (hassoc : ∀ a b c, add (add a b) c = add a (add b c)) (hzero : ∀ a, add a zero = a)
    (input out : List T) (init : T) (K : Nat) (hK2 : 2 ≤ K) (hKN : K ≤ input.length)
    (hin : (K - 1) * block_size input.length K ≤ input.length)
    (hlen : input.length < SIZE_MOD) (hout : out.length = input.length) :
    parallel_exclusive_scan_T add zero input out init K
      = some ⟨spec_exclusive_scan_T add input init, K + K⟩ := by
  have hstart := starts_in_range input.length K hin
  obtain ⟨sums, hsums, hsl, hsv⟩ := reduce_phase_T_eq add zero input K hlen hstart
  have hoff : ∀ i, i < K → (scan_values_T add sums init)[i]?
      = some ((input.take (i * block_size input.length K)).foldl add init) := by
    intro i hi
    rw [scan_values_T_getElem? add sums init i (by omega),
      foldl_block_sums add zero hassoc hzero input sums init K hsv i (by omega) (hstart i hi)]
  obtain ⟨out1, hout1, hol, hov⟩ :=
    scan_phase_T_eq add input out (scan_values_T add sums init) init K hlen hout hstart hoff
  have hcov := blocks_cover input.length K (by omega)
  have hspec : out1 = spec_exclusive_scan_T add input init := by
    apply List.ext_getElem?
    intro k
    by_cases hk : k < input.length
    · rw [hov k (by omega) hk]
      simp [spec_exclusive_scan_T, List.getElem?_range hk]
    · rw [List.getElem?_eq_none (by omega), List.getElem?_eq_none
        (by simp [spec_exclusive_scan_T]; omega)]
  unfold parallel_exclusive_scan_T scan_in_order_T
  rw [if_neg (by omega), if_neg (by omega), hsums]
  simp only [offset_scan_T_eq add zero sums init K hsl, hout1, hspec]

/-! ## The integer routine as an instance: lemmas -/

theorem accumulate_T_int (xs : List Int) (acc : Int) :
    accumulate_T (fun a b => a + b) xs acc = accumulate xs acc := by
  induction xs generalizing acc with
  | nil => rfl
  | cons x xs ih => simp [accumulate_T, accumulate, ih]

theorem exclusive_scan_T_int (xs : List Int) (acc : Int) (pos : Nat) (out : List Int) :
    exclusive_scan_T (fun a b => a + b) xs acc pos out = exclusive_scan xs acc pos out := by
  induction xs generalizing acc pos out with
  | nil => rfl
  | cons x xs ih =>
    simp only [exclusive_scan_T, exclusive_scan, store_T, store]
    split_ifs
    · exact ih _ _ _
    · rfl

theorem reducer_T_int (input : List Int) (K : Nat) :
    reducer_T (fun a b => a + b) 0 input K = reducer input K := by
  funext i sums
  unfold reducer_T reducer
  cases block_range input.length K i with
  | none => rfl
  | some r =>
    obtain ⟨s, e⟩ := r
    simp only [accumulate_T_int, store_T, store, slice_T, slice]

theorem scanner_T_int (input : List Int) (K : Nat) (offsets : List Int) :
    scanner_T (fun a b => a + b) input K offsets = scanner input K offsets := by
  funext i out
  unfold scanner_T scanner
  simp only [exclusive_scan_T_int, slice_T, slice]
  cases block_range input.length K i with
  | none => rfl
  | some r =>
    obtain ⟨s, e⟩ := r
    simp only []
    cases advance out.length 0 (block_start_offset input.length K i) with
    | none => rfl
    | some p =>
      simp only []
      split_ifs
      · cases offsets[i]? <;> rfl
      · rfl

theorem spec_exclusive_scan_T_int (input : List Int) (init : Int) :
    spec_exclusive_scan_T (fun a b => a + b) input init = spec_exclusive_scan input init := by
  unfold spec_exclusive_scan_T spec_exclusive_scan
  apply List.map_congr_left
  intro j _
  have h := accumulate_eq_sum (input.take j) init
  rw [← accumulate_T_int, accumulate_T_eq_foldl] at h
  exact h

theorem scan_in_order_T_int (input out : List Int) (init : Int) (K : Nat)
    (order1 order2 : List Nat) :
    (scan_in_order_T (fun a b => a + b) 0 input out init K order1 order2).map
        (fun c => Call.mk c.out c.spawned)
      = scan_in_order input out init K order1 order2 := by
  unfold scan_in_order_T scan_in_order reduce_phase offset_scan scan_phase
  simp only [exclusive_scan_T_int, reducer_T_int, scanner_T_int]
  split_ifs
  · rfl
  · cases exclusive_scan input init 0 out <;> rfl
  · cases run_workers (reducer input K) order1 (List.replicate K 0) with
    | none => rfl
    | some sums =>
      simp only []
      cases exclusive_scan sums init 0 (List.replicate K 0) with
      | none => rfl
      | some offsets =>
        simp only []
        cases run_workers (scanner input K offsets) order2 out <;> rfl

theorem block_path_eq (input out : List Int) (init : Int) (K : Nat) (hK2 : 2 ≤ K)
    (hKN : K ≤ input.length) (hin : (K - 1) * block_size input.length K ≤ input.length)
    (hlen : input.length < SIZE_MOD) (hout : out.length = input.length) :
    parallel_exclusive_scan input out init K
      = some ⟨spec_exclusive_scan input init, K + K⟩ := by
  have h := block_path_T_eq (fun a b => a + b) (0 : Int) (fun a b c => add_assoc a b c)
    (fun a => add_zero a) input out init K hK2 hKN hin hlen hout
  unfold parallel_exclusive_scan
  rw [← scan_in_order_T_int]
  unfold parallel_exclusive_scan_T at h
  rw [h, spec_exclusive_scan_T_int]
  rfl

theorem square_bound (length K : Nat) (hK2 : 2 ≤ K)
    (hsq : (K - 1) * (K - 1) ≤ length) : (K - 1) * block_size length K ≤ length := by
  obtain ⟨k, rfl⟩ : ∃ k, K = k + 1 := ⟨K - 1, by omega⟩
  simp only [Nat.add_sub_cancel] at hsq ⊢
  unfold block_size
  have h1 : (length + (k + 1) - 1) / (k + 1) * (k + 1) ≤ length + (k + 1) - 1 :=
    Nat.div_mul_le_self _ _
  have h2 : length + (k + 1) - 1 = length + k := by omega
  rw [h2] at h1 ⊢
  by_contra hlt
  have h3 : length + 1 ≤ k * ((length + k) / (k + 1)) := by omega
  nlinarith

theorem sequential_T_eq {T : Type} (add : T → T → T) (input out : List T) (init : T)
    (hout : out.length = input.length) :
    exclusive_scan_T add input init 0 out = some (spec_exclusive_scan_T add input init) := by
  rw [exclusive_scan_T_eq add input init 0 out (by omega)]
  congr 1
  apply List.ext_getElem?
  intro k
  rw [overwrite_T_getElem? _ _ _ (by rw [scan_values_T_length]; omega), scan_values_T_length]
  by_cases hk : k < input.length
  · simp only [Nat.not_lt_zero, if_false, Nat.zero_add, if_pos hk, Nat.sub_zero]
    rw [scan_values_T_getElem? add input init k hk]
    simp [spec_exclusive_scan_T, List.getElem?_range hk]
  · simp only [Nat.not_lt_zero, if_false, Nat.zero_add, if_neg hk]
    rw [List.getElem?_eq_none (by omega), List.getElem?_eq_none
      (by simp [spec_exclusive_scan_T]; omega)]

theorem word32_eq_of_val (a b : Word32) (h : a.val = b.val) : a = b := by
  cases a; cases b; simp only [Word32.mk.injEq]; exact h

theorem word32_add_assoc (a b c : Word32) :
    Word32.add (Word32.add a b) c = Word32.add a (Word32.add b c) := by
  apply word32_eq_of_val
  simp only [Word32.add, Word32.ofNat]
  omega

theorem word32_add_zero (a : Word32) : Word32.add a Word32.zero = a := by
  apply word32_eq_of_val
  have h := a.lt
  simp only [Word32.add, Word32.ofNat, Word32.zero]
  omega

theorem any_path_eq (input out : List Int) (init : Int) (K : Nat)
    (hlen : input.length < SIZE_MOD) (hout : out.length = input.length)
    (hK : (K ≤ 1 ∨ input.length < K) ∨ (K - 1) * block_size input.length K ≤ input.length) :
    ∃ n, parallel_exclusive_scan input out init K = some ⟨spec_exclusive_scan input init, n⟩ := by
  by_cases hf : K ≤ 1 ∨ input.length < K
  · exact ⟨0, fallback_eq input out init K _ _ hout hf⟩
  · rcases hK with hK | hK
    · exact absurd hK hf
    · exact ⟨K + K, block_path_eq input out init K (by omega) (by omega) hK hlen hout⟩

theorem spec_exclusive_scan_getElem? (input : List Int) (init : Int) (j : Nat)
    (hj : j < input.length) :
    (spec_exclusive_scan input init)[j]? = some (init + (input.take j).sum) := by
  simp [spec_exclusive_scan, List.getElem?_range hj]

/-! ## The claims on the blocks and on the block path -/

/-- C11 as stated fails: for `N = 5`, `K = 4` (block path, `block_size = 2`)
block 2 is not the last block (`K - 1 = 3`) and its range `[4,5)` holds one
element, not `block_size`. -/
theorem non_last_block_short :
    (2 ≤ 4 ∧ 4 ≤ 5) ∧ block_size 5 4 = 2 ∧ 2 ≠ 4 - 1 ∧
    block_range 5 4 2 = some (4, 5) ∧ 5 - 4 ≠ block_size 5 4 :=
  ⟨by decide, by decide, by decide, by decide, by decide⟩

/-- C11, amended: a block whose start `i * block_size` lies within the input
has exactly `block_size` elements when it ends within the input
(`(i + 1) * block_size ≤ N`), and otherwise the `N - i * block_size` remaining
ones (fewer than `block_size`, possibly none); when `(K - 1) * block_size ≤ N`
every block before the last is of the first kind. -/
theorem block_sizes (N K i : Nat) (hN : N < SIZE_MOD) (hin : i * block_size N K ≤ N) :
    ((i + 1) * block_size N K ≤ N →
      block_range N K i = some (i * block_size N K, i * block_size N K + block_size N K)) ∧
    (N < (i + 1) * block_size N K →
      block_range N K i = some (i * block_size N K, N) ∧
      N - i * block_size N K < block_size N K) ∧
    ((K - 1) * block_size N K ≤ N → i + 1 < K →
      block_range N K i = some (i * block_size N K, i * block_size N K + block_size N K)) := by
  have hr := block_range_eq N K i hN hin
  have hmul : (i + 1) * block_size N K = i * block_size N K + block_size N K := by
    rw [Nat.add_mul, Nat.one_mul]
  have hfull : (i + 1) * block_size N K ≤ N →
      block_range N K i = some (i * block_size N K, i * block_size N K + block_size N K) := by
    intro h
    rw [hr, Nat.min_eq_left h, hmul]
  refine ⟨hfull, ?_, ?_⟩
  · intro h
    refine ⟨?_, by omega⟩
    rw [hr, Nat.min_eq_right (by omega)]
  · intro h hi
    apply hfull
    exact Nat.le_trans (Nat.mul_le_mul_right _ (by omega)) h

/-- The amended C11 at `N = 5`, `K = 4`, block 2: the short block `[4,5)`. -/
theorem block_sizes_witness :
    5 < SIZE_MOD ∧ 2 * block_size 5 4 ≤ 5 ∧
    ((2 + 1) * block_size 5 4 ≤ 5 →
      block_range 5 4 2 = some (2 * block_size 5 4, 2 * block_size 5 4 + block_size 5 4)) ∧
    (5 < (2 + 1) * block_size 5 4 →
      block_range 5 4 2 = some (2 * block_size 5 4, 5) ∧
      5 - 2 * block_size 5 4 < block_size 5 4) ∧
    ((4 - 1) * block_size 5 4 ≤ 5 → 2 + 1 < 4 →
      block_range 5 4 2 = some (2 * block_size 5 4, 2 * block_size 5 4 + block_size 5 4)) :=
  ⟨by decide, by decide, block_sizes 5 4 2 (by decide) (by decide)⟩

/-- C12: whatever `K` values `block_sums` holds, the scan at lines 55-56 fills
`block_offsets` with `block_offsets[i] = init + block_sums[0] + ... +
block_sums[i-1]`; so `block_offsets[0] = init` and `block_offsets[i+1] =
block_offsets[i] + block_sums[i]`, with `init` entering each offset once. -/
theorem block_offsets_formula (block_sums : List Int) (init : Int) (K : Nat)
    (hl : block_sums.length = K) :
    ∃ block_offsets, offset_scan block_sums init K = some block_offsets ∧
      block_offsets.length = K ∧
      (∀ i, i < K → block_offsets[i]? = some (init + (block_sums.take i).sum)) ∧
      (0 < K → block_offsets[0]? = some init) ∧
      (∀ i, i + 1 < K → ∃ a b, block_offsets[i]? = some a ∧ block_sums[i]? = some b ∧
        block_offsets[i + 1]? = some (a + b)) := by
  have hform : ∀ i, i < K →
      (spec_exclusive_scan block_sums init)[i]? = some (init + (block_sums.take i).sum) :=
    fun i hi => spec_exclusive_scan_getElem? block_sums init i (by omega)
  refine ⟨spec_exclusive_scan block_sums init, ?_, by simp [spec_exclusive_scan, hl], hform, ?_, ?_⟩
  · unfold offset_scan
    rw [exclusive_scan_eq block_sums init 0 _ (by simp [hl]),
      overwrite_all _ _ (by simp [scan_values_length, hl]), scan_values_eq_spec]
  · intro h0
    rw [hform 0 h0]
    simp
  · intro i hi
    have hib : i < block_sums.length := by omega
    have hb : block_sums[i]? = some block_sums[i] := List.getElem?_eq_getElem hib
    have hsum : (block_sums.take (i + 1)).sum = (block_sums.take i).sum + block_sums[i] := by
      rw [List.take_succ, hb]
      simp only [Option.toList, List.sum_append, List.sum_cons, List.sum_nil, add_zero]
    refine ⟨_, _, hform i (by omega), hb, ?_⟩
    rw [hform (i + 1) hi, hsum, add_assoc]

/-- C12 on the block sums of scenario A. -/
theorem block_offsets_formula_witness :
    ([8, 15, 8] : List Int).length = 3 ∧
    ∃ block_offsets, offset_scan [8, 15, 8] 0 3 = some block_offsets ∧
      block_offsets.length = 3 ∧
      (∀ i, i < 3 → block_offsets[i]? = some (0 + (([8, 15, 8] : List Int).take i).sum)) ∧
      (0 < 3 → block_offsets[0]? = some 0) ∧
      (∀ i, i + 1 < 3 → ∃ a b, block_offsets[i]? = some a ∧
        ([8, 15, 8] : List Int)[i]? = some b ∧ block_offsets[i + 1]? = some (a + b)) :=
  ⟨rfl, block_offsets_formula [8, 15, 8] 0 3 rfl⟩

/-- C13, evaluated at the failing input: for `input = [1,1,1,1,1]`, `K = 4`
the reducers of blocks 0, 1, 2 store the sums `2, 2, 1` of their ranges, seeded
by 0, but the reducer of block 3, a trailing block without elements, does not
store 0: its start iterator is moved to offset 6, past the end of the input,
and the thread is undefined, and so is the reducer phase. -/
theorem reducer_leaves_input (block_sums : List Int) :
    run_workers (reducer [1, 1, 1, 1, 1] 4) [0, 1, 2] [0, 0, 0, 0] = some [2, 2, 1, 0] ∧
    reducer [1, 1, 1, 1, 1] 4 3 block_sums = none ∧
    reduce_phase [1, 1, 1, 1, 1] 4 (List.range 4) = none :=
  ⟨by decide, rfl, by decide⟩

/-- C14, evaluated at the failing input: for `input = [1,1,1,1,1]`, `K = 4` and
the offsets `[0,2,4,5]` the scanners of blocks 0, 1, 2 store `[0,1,2,3,4]`, but
the scanner of block 3, a trailing block without elements, does not leave the
output alone: it targets offset 6 of the 5-element buffers and is undefined,
and so is the scanner phase, for every content of the output buffer. -/
theorem scanner_leaves_output (o0 o1 o2 o3 o4 : Int) :
    run_workers (scanner [1, 1, 1, 1, 1] 4 [0, 2, 4, 5]) [0, 1, 2] [o0, o1, o2, o3, o4]
      = some [0, 1, 2, 3, 4] ∧
    scan_phase [1, 1, 1, 1, 1] 4 [0, 2, 4, 5] (List.range 4) [o0, o1, o2, o3, o4] = none :=
  ⟨rfl, rfl⟩

/-- C15: when `2 ≤ K ≤ N` and `(K - 1)² ≤ N`, every block start offset
`i * block_size` is at most `N`, the iterators of every block are defined with
its end at most `N`, and the whole call is defined: no iterator leaves the
input or the output. -/
theorem in_bounds_condition (input out : List Int) (init : Int) (K : Nat) (hK2 : 2 ≤ K)
    (hKN : K ≤ input.length) (hsq : (K - 1) * (K - 1) ≤ input.length)
    (hlen : input.length < SIZE_MOD) (hout : out.length = input.length) :
    (∀ i, i < K → block_start_offset input.length K i ≤ input.length ∧
      ∃ e, block_range input.length K i = some (block_start_offset input.length K i, e) ∧
        e ≤ input.length) ∧
    ∃ c, parallel_exclusive_scan input out init K = some c ∧ c.out.length = input.length := by
  have hin := square_bound input.length K hK2 hsq
  constructor
  · intro i hi
    have hs := starts_in_range input.length K hin i hi
    exact ⟨hs, _, block_range_eq input.length K i hlen hs, Nat.min_le_right _ _⟩
  · exact ⟨_, block_path_eq input out init K hK2 hKN hin hlen hout,
      by simp [spec_exclusive_scan]⟩

/-- C15 on scenario A: `K = 3`, `N = 8`, `(K - 1)² = 4 ≤ 8`. -/
theorem in_bounds_condition_witness :
    2 ≤ 3 ∧ 3 ≤ ([3, 1, 4, 1, 5, 9, 2, 6] : List Int).length ∧
    (3 - 1) * (3 - 1) ≤ ([3, 1, 4, 1, 5, 9, 2, 6] : List Int).length ∧
    ([3, 1, 4, 1, 5, 9, 2, 6] : List Int).length < SIZE_MOD ∧
    (List.replicate 8 (0 : Int)).length = ([3, 1, 4, 1, 5, 9, 2, 6] : List Int).length ∧
    ((∀ i, i < 3 →
      block_start_offset ([3, 1, 4, 1, 5, 9, 2, 6] : List Int).length 3 i
          ≤ ([3, 1, 4, 1, 5, 9, 2, 6] : List Int).length ∧
      ∃ e, block_range ([3, 1, 4, 1, 5, 9, 2, 6] : List Int).length 3 i
          = some (block_start_offset ([3, 1, 4, 1, 5, 9, 2, 6] : List Int).length 3 i, e) ∧
        e ≤ ([3, 1, 4, 1, 5, 9, 2, 6] : List Int).length) ∧
    ∃ c, parallel_exclusive_scan [3, 1, 4, 1, 5, 9, 2, 6] (List.replicate 8 0) 0 3 = some c ∧
      c.out.length = ([3, 1, 4, 1, 5, 9, 2, 6] : List Int).length) :=
  ⟨by decide, by decide, by decide, by decide, by decide,
    in_bounds_condition [3, 1, 4, 1, 5, 9, 2, 6] (List.replicate 8 0) 0 3
      (by decide) (by decide) (by decide) (by decide) (by decide)⟩

/-- C16: when `2 ≤ K ≤ N` and every block start lies within the input
(`(K - 1) * block_size ≤ N`), the block path is defined and leaves in the
output buffer the sequential exclusive scan of the whole input seeded by
`init`. -/
theorem conditional_equivalence (input out : List Int) (init : Int) (K : Nat) (hK2 : 2 ≤ K)
    (hKN : K ≤ input.length) (hin : (K - 1) * block_size input.length K ≤ input.length)
    (hlen : input.length < SIZE_MOD) (hout : out.length = input.length) :
    parallel_exclusive_scan input out init K
      = some ⟨spec_exclusive_scan input init, K + K⟩ :=
  block_path_eq input out init K hK2 hKN hin hlen hout

/-- C16 on scenario C: input `[1,1,1,1,1,1]`, `init = 0`, `K = 2`. -/
theorem conditional_equivalence_witness :
    2 ≤ 2 ∧ 2 ≤ ([1, 1, 1, 1, 1, 1] : List Int).length ∧
    (2 - 1) * block_size ([1, 1, 1, 1, 1, 1] : List Int).length 2
      ≤ ([1, 1, 1, 1, 1, 1] : List Int).length ∧
    ([1, 1, 1, 1, 1, 1] : List Int).length < SIZE_MOD ∧
    ([7, 7, 7, 7, 7, 7] : List Int).length = ([1, 1, 1, 1, 1, 1] : List Int).length ∧
    parallel_exclusive_scan [1, 1, 1, 1, 1, 1] [7, 7, 7, 7, 7, 7] 0 2
      = some ⟨spec_exclusive_scan [1, 1, 1, 1, 1, 1] 0, 2 + 2⟩ ∧
    spec_exclusive_scan [1, 1, 1, 1, 1, 1] 0 = [0, 1, 2, 3, 4, 5] :=
  ⟨by decide, by decide, by decide, by decide, by decide,
    conditional_equivalence [1, 1, 1, 1, 1, 1] [7, 7, 7, 7, 7, 7] 0 2
      (by decide) (by decide) (by decide) (by decide) (by decide),
    by decide⟩

/-- C17: for a non-empty input and a `K` on the fallback path or with every
block start within the input, the call with `init` and the call with seed 0
are both defined, `output[0] = init`, and at every position the output with
`init` is `init` plus the output with seed 0. -/
theorem init_counted_once (input out : List Int) (init : Int) (K : Nat)
    (hN : 1 ≤ input.length) (hlen : input.length < SIZE_MOD)
    (hout : out.length = input.length)
    (hK : (K ≤ 1 ∨ input.length < K) ∨ (K - 1) * block_size input.length K ≤ input.length) :
    ∃ c c0, parallel_exclusive_scan input out init K = some c ∧
      parallel_exclusive_scan input out 0 K = some c0 ∧
      c.out[0]? = some init ∧
      ∀ j, j < input.length → ∃ v, c0.out[j]? = some v ∧ c.out[j]? = some (init + v) := by
  obtain ⟨n, h⟩ := any_path_eq input out init K hlen hout hK
  obtain ⟨n0, h0⟩ := any_path_eq input out 0 K hlen hout hK
  refine ⟨_, _, h, h0, ?_, ?_⟩
  · simp only []
    rw [spec_exclusive_scan_getElem? input init 0 (by omega)]
    simp
  · intro j hj
    refine ⟨_, spec_exclusive_scan_getElem? input 0 j hj, ?_⟩
    simp only []
    rw [spec_exclusive_scan_getElem? input init j hj]
    simp

/-- C17 on scenario A with `init = 100`. -/
theorem init_counted_once_witness :
    1 ≤ ([3, 1, 4, 1, 5, 9, 2, 6] : List Int).length ∧
    ([3, 1, 4, 1, 5, 9, 2, 6] : List Int).length < SIZE_MOD ∧
    (List.replicate 8 (0 : Int)).length = ([3, 1, 4, 1, 5, 9, 2, 6] : List Int).length ∧
    ((3 ≤ 1 ∨ ([3, 1, 4, 1, 5, 9, 2, 6] : List Int).length < 3) ∨
      (3 - 1) * block_size ([3, 1, 4, 1, 5, 9, 2, 6] : List Int).length 3
        ≤ ([3, 1, 4, 1, 5, 9, 2, 6] : List Int).length) ∧
    ∃ c c0, parallel_exclusive_scan [3, 1, 4, 1, 5, 9, 2, 6] (List.replicate 8 0) 100 3 = some c ∧
      parallel_exclusive_scan [3, 1, 4, 1, 5, 9, 2, 6] (List.replicate 8 0) 0 3 = some c0 ∧
      c.out[0]? = some 100 ∧
      ∀ j, j < ([3, 1, 4, 1, 5, 9, 2, 6] : List Int).length →
        ∃ v, c0.out[j]? = some v ∧ c.out[j]? = some (100 + v) :=
  ⟨by decide, by decide, by decide, by decide,
    init_counted_once [3, 1, 4, 1, 5, 9, 2, 6] (List.replicate 8 0) 100 3
      (by decide) (by decide) (by decide) (by decide)⟩

/-- C18: with 32-bit elements and addition modulo `2 ^ 32`, when `2 ≤ K ≤ N`
and every block start lies within the input, the block path is defined and
leaves in the output buffer what the sequential `std::exclusive_scan` with the
same addition leaves there: at position `j`, `init` combined left to right
with the elements before `j`, wrapping included. -/
theorem wraparound_equivalence (input out : List Word32) (init : Word32) (K : Nat)
    (hK2 : 2 ≤ K) (hKN : K ≤ input.length)
    (hin : (K - 1) * block_size input.length K ≤ input.length)
    (hlen : input.length < SIZE_MOD) (hout : out.length = input.length) :
    parallel_exclusive_scan_32 input out init K
      = some ⟨spec_exclusive_scan_T Word32.add input init, K + K⟩ ∧
    exclusive_scan_32 input init out = some (spec_exclusive_scan_T Word32.add input init) :=
  ⟨block_path_T_eq Word32.add Word32.zero word32_add_assoc word32_add_zero input out init K
      hK2 hKN hin hlen hout,
    sequential_T_eq Word32.add input out init hout⟩

/-- C18 on an input whose block sums, offsets and prefix sums all wrap. -/
theorem wraparound_equivalence_witness :
    2 ≤ 2 ∧
    2 ≤ ([4000000000, 4000000000, 7, 4294967295, 5].map Word32.ofNat).length ∧
    (2 - 1) * block_size ([4000000000, 4000000000, 7, 4294967295, 5].map Word32.ofNat).length 2
      ≤ ([4000000000, 4000000000, 7, 4294967295, 5].map Word32.ofNat).length ∧
    ([4000000000, 4000000000, 7, 4294967295, 5].map Word32.ofNat).length < SIZE_MOD ∧
    (List.replicate 5 Word32.zero).length
      = ([4000000000, 4000000000, 7, 4294967295, 5].map Word32.ofNat).length ∧
    (parallel_exclusive_scan_32 ([4000000000, 4000000000, 7, 4294967295, 5].map Word32.ofNat)
        (List.replicate 5 Word32.zero) (Word32.ofNat 4294967290) 2
      = some ⟨spec_exclusive_scan_T Word32.add
          ([4000000000, 4000000000, 7, 4294967295, 5].map Word32.ofNat)
          (Word32.ofNat 4294967290), 2 + 2⟩ ∧
    exclusive_scan_32 ([4000000000, 4000000000, 7, 4294967295, 5].map Word32.ofNat)
        (Word32.ofNat 4294967290) (List.replicate 5 Word32.zero)
      = some (spec_exclusive_scan_T Word32.add
          ([4000000000, 4000000000, 7, 4294967295, 5].map Word32.ofNat)
          (Word32.ofNat 4294967290))) ∧
    spec_exclusive_scan_T Word32.add
        ([4000000000, 4000000000, 7, 4294967295, 5].map Word32.ofNat) (Word32.ofNat 4294967290)
      = [4294967290, 3999999994, 3705032698, 3705032705, 3705032704].map Word32.ofNat :=
  ⟨by decide, by decide, by decide, by decide, by decide,
    wraparound_equivalence ([4000000000, 4000000000, 7, 4294967295, 5].map Word32.ofNat)
      (List.replicate 5 Word32.zero) (Word32.ofNat 4294967290) 2
      (by decide) (by decide) (by decide) (by decide) (by decide),
    by decide⟩

/-! ## Determinism -/

/-- Where a call is defined (fallback path, or every block start within the
input), two calls with the same `input`, `init` and `K` leave the same output,
the sequential scan, whatever the order of the thread bodies and whatever the
output buffers held before. -/
theorem defined_calls_agree (input out1 out2 : List Int) (init : Int) (K : Nat)
    (a1 a2 b1 b2 : List Nat)
    (ha1 : a1.Perm (List.range K)) (ha2 : a2.Perm (List.range K))
    (hb1 : b1.Perm (List.range K)) (hb2 : b2.Perm (List.range K))
    (hlen : input.length < SIZE_MOD)
    (hout1 : out1.length = input.length) (hout2 : out2.length = input.length)
    (hK : (K ≤ 1 ∨ input.length < K) ∨ (K - 1) * block_size input.length K ≤ input.length) :
    ∃ n, scan_in_order input out1 init K a1 a2 = some ⟨spec_exclusive_scan input init, n⟩ ∧
      scan_in_order input out2 init K b1 b2 = some ⟨spec_exclusive_scan input init, n⟩ := by
  by_cases hf : K ≤ 1 ∨ input.length < K
  · exact ⟨0, fallback_eq input out1 init K _ _ hout1 hf, fallback_eq input out2 init K _ _ hout2 hf⟩
  · rcases hK with hK | hK
    · exact absurd hK hf
    · refine ⟨K + K, ?_, ?_⟩
      · rw [outcome_order_independent input out1 init K a1 a2 (List.range K) (List.range K)
          ha1 ha2 (List.Perm.refl _) (List.Perm.refl _)]
        exact block_path_eq input out1 init K (by omega) (by omega) hK hlen hout1
      · rw [outcome_order_independent input out2 init K b1 b2 (List.range K) (List.range K)
          hb1 hb2 (List.Perm.refl _) (List.Perm.refl _)]
        exact block_path_eq input out2 init K (by omega) (by omega) hK hlen hout2

/-- C9, evaluated at the failing input: for `input = [1,1,1,1,1]` and `K = 4`
no call yields an output, so two calls do not yield identical output: wherever
reducer 3 stands in the order of the thread bodies (every order has the form
`before ++ 3 :: after`), it moves its start iterator to offset 6, past the end
of the input, and what the call does from there on is not determined by
`input`, `init` and `K`. -/
theorem determinism_lost_past_input (out : List Int) (init : Int)
    (before after order2 : List Nat) :
    scan_in_order [1, 1, 1, 1, 1] out init 4 (before ++ 3 :: after) order2 = none ∧
    scan_in_order [1, 1, 1, 1, 1] out init 4 [0, 1, 2, 3] [0, 1, 2, 3] = none ∧
    scan_in_order [1, 1, 1, 1, 1] out init 4 [3, 2, 1, 0] [2, 0, 3, 1] = none := by
  refine ⟨?_, rfl, rfl⟩
  have h3 : ∀ sums, run_workers (reducer [1, 1, 1, 1, 1] 4) (3 :: after) sums = none :=
    fun sums => rfl
  have hr : reduce_phase [1, 1, 1, 1, 1] 4 (before ++ 3 :: after) = none := by
    unfold reduce_phase
    rw [run_workers_append]
    cases run_workers (reducer [1, 1, 1, 1, 1] 4) before (List.replicate 4 0) with
    | none => rfl
    | some sums => exact h3 sums
  unfold scan_in_order
  rw [if_neg (by decide), if_neg (by decide), hr]

end Lab2
